import Mathlib

/-!
Verification development for the Social Pulse analytics backend.

The Python sources under `backend/api/` (`pipeline.py`, `ml_engine.py`) are
shallowly embedded below: tables are lists of rows, a row is an association
list from column names to cells, and a cell is either missing (`NaN`), a
rational number (standing for the float values of the program), a string, or
a parsed date.  Library primitives (`pandas.to_numeric`,
`pandas.to_datetime`, …) are modelled by executable Lean functions restricted
to the value formats the pipeline itself produces and consumes; each such
model is commented at its definition.
-/

namespace SocialPulse

/-! ### Character-list utilities (Python string primitives) -/

/-- Python compares strings lexicographically by Unicode code point.
`lexLe a b` is `a <= b` in that order. -/
def lexLe : List Char → List Char → Bool
  | [], _ => true
  | _ :: _, [] => false
  | a :: as, b :: bs =>
    if a.toNat < b.toNat then true
    else if b.toNat < a.toNat then false
    else lexLe as bs

def lexLe_total : ∀ as bs : List Char, lexLe as bs = true ∨ lexLe bs as = true := by
  intro as
  induction as with
  | nil => intro bs; left; rfl
  | cons a as ih =>
    intro bs
    cases bs with
    | nil => right; rfl
    | cons b bs =>
      by_cases hab : a.toNat < b.toNat
      · left; simp [lexLe, hab]
      · by_cases hba : b.toNat < a.toNat
        · right; simp [lexLe, hba]
        · rcases ih bs with h | h
          · left; simp [lexLe, hab, hba, h]
          · right; simp [lexLe, hab, hba, h]

def lexLe_trans : ∀ as bs cs : List Char,
    lexLe as bs = true → lexLe bs cs = true → lexLe as cs = true := by
  intro as
  induction as with
  | nil => intro bs cs _ _; rfl
  | cons a as ih =>
    intro bs cs h1 h2
    cases bs with
    | nil => simp [lexLe] at h1
    | cons b bs =>
      cases cs with
      | nil => simp [lexLe] at h2
      | cons c cs =>
        simp only [lexLe] at h1 h2 ⊢
        by_cases hab : a.toNat < b.toNat
        · by_cases hbc : b.toNat < c.toNat
          · simp [show a.toNat < c.toNat by omega]
          · by_cases hcb : c.toNat < b.toNat
            · simp [hbc, hcb] at h2
            · simp [show a.toNat < c.toNat by omega]
        · by_cases hba : b.toNat < a.toNat
          · simp [hab, hba] at h1
          · rw [if_neg hab, if_neg hba] at h1
            by_cases hbc : b.toNat < c.toNat
            · simp [show a.toNat < c.toNat by omega]
            · by_cases hcb : c.toNat < b.toNat
              · simp [hbc, hcb] at h2
              · rw [if_neg hbc, if_neg hcb] at h2
                rw [if_neg (show ¬ a.toNat < c.toNat by omega),
                  if_neg (show ¬ c.toNat < a.toNat by omega)]
                exact ih bs cs h1 h2

/-- Python `str` whitespace test used by `str.strip` / `pandas.str.strip`. -/
def isWS (c : Char) : Bool := c.isWhitespace

/-- Python `str.strip()`: drop leading and trailing whitespace. -/
def trimChars (l : List Char) : List Char :=
  (((l.dropWhile isWS).reverse.dropWhile isWS)).reverse

/-- `str.strip()` on a `String`. -/
def trimStr (s : String) : String := ⟨trimChars s.data⟩

/-! ### Decimal parsing: model of `pandas.to_numeric(errors='coerce')` on strings.
Restricted to optionally signed decimal literals, the format the pipeline
itself reads and writes; any other string coerces to `NaN`. -/

def digitVal (c : Char) : Option Nat :=
  if c.isDigit then some (c.toNat - 48) else none

def parseDigitsAux : List Char → Nat → Option Nat
  | [], acc => some acc
  | c :: cs, acc =>
    match digitVal c with
    | some d => parseDigitsAux cs (10 * acc + d)
    | none => none

def parseDigits (l : List Char) : Option Nat :=
  if l.isEmpty then none else parseDigitsAux l 0

def parseNumChars (l0 : List Char) : Option ℚ :=
  let l1 := trimChars l0
  let sl : ℤ × List Char :=
    match l1 with
    | '-' :: rest => (-1, rest)
    | '+' :: rest => (1, rest)
    | _ => (1, l1)
  match sl.2.splitOn '.' with
  | [ip] => (parseDigits ip).map (fun n => mkRat (sl.1 * n) 1)
  | [ip, fp] =>
    match parseDigits ip, parseDigits fp with
    | some n, some f =>
      some (mkRat (sl.1 * (n * 10 ^ fp.length + f)) (10 ^ fp.length))
    | _, _ => none
  | _ => none

def parseNumStr (s : String) : Option ℚ := parseNumChars s.data

/-! ### Pandas float semantics for the engagement-rate derivation.
`PVal` adds the IEEE specials `NaN` / `±Infinity` to the rationals so that
`interactions / reach * 100` followed by `.fillna(0)` and
`.replace([inf, -inf], 0)` can be traced exactly. -/

inductive PVal where
  | nan : PVal
  | inf : PVal
  | ninf : PVal
  | val (q : ℚ) : PVal
deriving DecidableEq

/-- Pandas float division `a / b`: `x/0` gives `±Infinity`, `0/0` gives `NaN`. -/
def pvDiv (a b : ℚ) : PVal :=
  if b = 0 then (if a = 0 then .nan else if 0 < a then .inf else .ninf)
  else .val (a / b)

/-- Multiplication of a pandas float by the positive constant 100. -/
def pvScale100 : PVal → PVal
  | .nan => .nan
  | .inf => .inf
  | .ninf => .ninf
  | .val q => .val (q * 100)

/-- `.fillna(0)` followed by `.replace([float('inf'), -float('inf')], 0)`. -/
def cleanse : PVal → ℚ
  | .val q => q
  | _ => 0

/-! ### The table model -/

/-- One pandas cell: missing (`NaN`/`NaT`), numeric, string, or parsed date. -/
inductive Cell where
  | null : Cell
  | num (q : ℚ) : Cell
  | str (s : String) : Cell
  | date (y m d : Nat) : Cell
deriving DecidableEq, Repr

/-- One row: an association list from column name to cell. -/
abbrev Row := List (String × Cell)

/-- A dataframe: a column-name list plus one association list per row. -/
structure Table where
  cols : List String
  rows : List Row
deriving DecidableEq, Repr

/-- First value stored under key `c` (pandas reads the first of duplicated
labels). -/
def rowLookup : Row → String → Option Cell
  | [], _ => none
  | p :: rest, c => if p.1 = c then some p.2 else rowLookup rest c

/-- Read a cell; a missing key reads as `NaN`. -/
def cellAt (r : Row) (c : String) : Cell := (rowLookup r c).getD .null

def hasKey (r : Row) (c : String) : Bool := (rowLookup r c).isSome

/-- Write one cell of a row, appending the key if it is new
(pandas column assignment). -/
def setCellRow (r : Row) (c : String) (v : Cell) : Row :=
  if hasKey r c then r.map (fun p => if p.1 = c then (p.1, v) else p)
  else r ++ [(c, v)]

/-- Column assignment `df[c] = f(row)`: rewrite every row, register the
column name if it is new. -/
def setColR (t : Table) (c : String) (f : Row → Cell) : Table :=
  ⟨if c ∈ t.cols then t.cols else t.cols ++ [c],
   t.rows.map (fun r => setCellRow r c (f r))⟩

/-! ### pipeline.py : `preprocess_csv`

The pipeline is embedded step by step in the order of the source:
column-name trimming, date parsing (plus `Day_of_Week` / `Month`), optional
date standardization, hour extraction, platform canonicalization, optional
null handling, optional deduplication, numeric coercion and
engagement-rate derivation.  File input/output is outside the model: the
pipeline maps an in-memory table to an in-memory table. -/

structure Options where
  removeNulls : Bool
  deduplicate : Bool
  standardizeDates : Bool
deriving DecidableEq, Repr

def parseISOChars (l : List Char) : Option (Nat × Nat × Nat) :=
  match l.splitOn '-' with
  | [ys, ms, ds] =>
    match parseDigits ys, parseDigits ms, parseDigits ds with
    | some y, some m, some d =>
      if 1 ≤ m ∧ m ≤ 12 ∧ 1 ≤ d ∧ d ≤ 31 then some (y, m, d) else none
    | _, _, _ => none
  | _ => none

/-- Model of `pandas.to_datetime(col, dayfirst=True, errors='coerce')`,
restricted to ISO `YYYY-MM-DD` strings (the format this pipeline itself
emits, which pandas parses the same way regardless of `dayfirst`).  Any
other value coerces to `NaT`; an already-parsed date is unchanged. -/
def parseDateCell : Cell → Cell
  | .date y m d => .date y m d
  | .str s =>
    match parseISOChars (trimChars s.data) with
    | some (y, m, d) => .date y m d
    | none => .null
  | _ => .null

/-- Gregorian day of week via Zeller's congruence, Monday = 0 as in
`pandas.Series.dt.dayofweek`. -/
def dayOfWeekNum (y m d : Nat) : Nat :=
  let a := if m ≤ 2 then 1 else 0
  let yy := y - a
  let mm := m + 12 * a
  let k := yy % 100
  let j := yy / 100
  let h := (d + (13 * (mm + 1)) / 5 + k + k / 4 + j / 4 + 5 * j) % 7
  (h + 5) % 7

/-- `.dt.dayofweek`: `NaT` maps to `NaN`. -/
def dowCell : Cell → Cell
  | .date y m d => .num ((dayOfWeekNum y m d : Nat) : ℚ)
  | _ => .null

/-- `.dt.month`: `NaT` maps to `NaN`. -/
def monthCell : Cell → Cell
  | .date _ m _ => .num ((m : Nat) : ℚ)
  | _ => .null

def pad2 (n : Nat) : String := if n < 10 then "0" ++ toString n else toString n

def isoOfDate (y m d : Nat) : String := toString y ++ "-" ++ pad2 m ++ "-" ++ pad2 d

/-- `.dt.strftime('%Y-%m-%d')`: `NaT` maps to `NaN`. -/
def strftimeCell : Cell → Cell
  | .date y m d => .str (isoOfDate y m d)
  | _ => .null

/-- Model of `pd.to_datetime(col, format='%H:%M', errors='coerce').dt.hour`:
a `H:MM`/`HH:MM` string with valid hour and minute parses to its hour,
everything else coerces to `NaT` (a `NaN` hour). -/
def parseHourCell : Cell → Cell
  | .str s =>
    match (trimChars s.data).splitOn ':' with
    | [hs, ms] =>
      match parseDigits hs, parseDigits ms with
      | some h, some m =>
        if hs.length ≤ 2 ∧ ms.length ≤ 2 ∧ h ≤ 23 ∧ m ≤ 59
        then .num ((h : Nat) : ℚ) else .null
      | _, _ => .null
    | _ => .null
  | _ => .null

/-- `pandas.to_numeric(errors='coerce')` on one cell.  A datetime column
converts to an integer; the encoding chosen here is an injective stand-in
for the nanosecond epoch value (no claim depends on it). -/
def toNumCell : Cell → Cell
  | .num q => .num q
  | .str s =>
    match parseNumStr s with
    | some q => .num q
    | none => .null
  | .null => .null
  | .date y m d => .num ((y * 10000 + m * 100 + d : Nat) : ℚ)

/-- `pd.to_numeric(col, errors='coerce').fillna(0)`. -/
def coerceCell (c : Cell) : Cell :=
  match toNumCell c with
  | .null => .num 0
  | v => v

def platformKeys : List String := ["twitter", "Twitter", "TWITTER", "x"]

/-- `df['Platform'].replace(platform_map)`. -/
def replacePlatform : Cell → Cell
  | .str s => if s ∈ platformKeys then .str "X" else .str s
  | v => v

/-- `pandas.Series.median()` (NaN-skipping; mean of the two central values
for an even count; `NaN` for an empty series). -/
def seriesMedian (l : List ℚ) : Option ℚ :=
  let s := List.insertionSort (fun a b : ℚ => a ≤ b) l
  let n := s.length
  if n = 0 then none
  else if n % 2 = 1 then s[n / 2]?
  else
    match s[n / 2 - 1]?, s[n / 2]? with
    | some a, some b => some ((a + b) / 2)
    | _, _ => none

def isNullCell : Cell → Bool
  | .null => true
  | _ => false

/-! #### The pipeline steps -/

def trimKeysRow (r : Row) : Row := r.map (fun p => (trimStr p.1, p.2))

/-- Step 1: `df.columns = df.columns.str.strip()`. -/
def trimStep (t : Table) : Table := ⟨t.cols.map trimStr, t.rows.map trimKeysRow⟩

/-- Step 2: parse `Date`, derive `Day_of_Week` and `Month`. -/
def dateStep (t : Table) : Table :=
  if "Date" ∈ t.cols then
    setColR (setColR (setColR t "Date" (fun r => parseDateCell (cellAt r "Date")))
      "Day_of_Week" (fun r => dowCell (cellAt r "Date")))
      "Month" (fun r => monthCell (cellAt r "Date"))
  else t

/-- Step 2b: optional `YYYY-MM-DD` restringification. -/
def stdDatesStep (o : Options) (t : Table) : Table :=
  if o.standardizeDates ∧ "Date" ∈ t.cols then
    setColR t "Date" (fun r => strftimeCell (cellAt r "Date"))
  else t

/-- Step 3: extract `Hour` from `Time` (with the all-NaN numeric fallback)
or from a lowercase `hour` column. -/
def timeStep (t : Table) : Table :=
  if "Time" ∈ t.cols then
    setColR t "Hour" (fun r =>
      if t.rows.all (fun r0 => parseHourCell (cellAt r0 "Time") == Cell.null)
      then toNumCell (cellAt r "Time") else parseHourCell (cellAt r "Time"))
  else if "hour" ∈ t.cols then
    setColR t "Hour" (fun r => toNumCell (cellAt r "hour"))
  else t

/-- Step 4: canonicalize platform names. -/
def platformStep (t : Table) : Table :=
  if "Platform" ∈ t.cols then
    setColR t "Platform" (fun r => replacePlatform (cellAt r "Platform"))
  else t

def criticalCols (t : Table) : List String :=
  ["Engagement_Rate", "Platform"].filter (· ∈ t.cols)

/-- `df.dropna(subset=critical_cols)`. -/
def dropNullRows (t : Table) : Table :=
  ⟨t.cols, t.rows.filter (fun r => (criticalCols t).all (fun c => !(isNullCell (cellAt r c))))⟩

/-- The pandas numeric dtypes: every cell of the column is a number or
missing. -/
def isNumCol (t : Table) (c : String) : Bool :=
  t.rows.all (fun r =>
    match cellAt r c with
    | .num _ => true
    | .null => true
    | _ => false)

def fillColMedian (t : Table) (c : String) : Table :=
  match seriesMedian (t.rows.filterMap (fun r =>
    match cellAt r c with
    | .num q => some q
    | _ => none)) with
  | some m =>
    setColR t c (fun r =>
      match cellAt r c with
      | .null => .num m
      | v => v)
  | none => t

/-- `df[col] = df[col].fillna(df[col].median())` for every numeric column
with at least one missing value. -/
def medianFillStep (t : Table) : Table :=
  (t.cols.filter (fun c => isNumCol t c)).foldl (fun acc c =>
    if acc.rows.any (fun r => isNullCell (cellAt r c)) then fillColMedian acc c else acc) t

/-- Step 5: optional null handling. -/
def nullStep (o : Options) (t : Table) : Table :=
  if o.removeNulls then medianFillStep (dropNullRows t) else t

def dropDupsAux : List Row → List Row → List Row
  | _, [] => []
  | seen, r :: rest =>
    if r ∈ seen then dropDupsAux seen rest else r :: dropDupsAux (r :: seen) rest

/-- `df.drop_duplicates()`: keep the first occurrence of each row value. -/
def dropDups (l : List Row) : List Row := dropDupsAux [] l

/-- Step 6: optional deduplication. -/
def dedupStep (o : Options) (t : Table) : Table :=
  if o.deduplicate then ⟨t.cols, dropDups t.rows⟩ else t

def numericColumns : List String :=
  ["Likes", "Comments", "Shares", "Saves", "Reach",
   "Engagement_Rate", "Caption_Length", "Hashtag_count"]

/-- Numeric coercion of one row: the column loop of step 7 acts on each
row independently, so it is phrased here as a per-row fold. -/
def coerceRow (cols : List String) (r : Row) : Row :=
  numericColumns.foldl (fun acc c =>
    if c ∈ cols then setCellRow acc c (coerceCell (cellAt acc c)) else acc) r

/-- Step 7: numeric coercion of the canonical counter columns. -/
def coerceStep (t : Table) : Table := ⟨t.cols, t.rows.map (coerceRow t.cols)⟩

def cellPV : Cell → PVal
  | .num q => .val q
  | _ => .nan

def pvAdd : PVal → PVal → PVal
  | .val a, .val b => .val (a + b)
  | .nan, _ => .nan
  | _, .nan => .nan
  | .inf, .ninf => .nan
  | .ninf, .inf => .nan
  | .inf, _ => .inf
  | _, .inf => .inf
  | .ninf, _ => .ninf
  | _, .ninf => .ninf

def pvDivPV : PVal → PVal → PVal
  | .val a, .val b => pvDiv a b
  | .nan, _ => .nan
  | _, _ => .nan

def interStep (cols : List String) (r : Row) (c : String) (acc : PVal) : PVal :=
  if c ∈ cols then pvAdd acc (cellPV (cellAt r c)) else acc

/-- `interactions = df['Likes'] if 'Likes' in df.columns else 0`, then
`+=` for each further counter column that exists. -/
def interPV (cols : List String) (r : Row) : PVal :=
  interStep cols r "Saves" (interStep cols r "Shares" (interStep cols r "Comments"
    (if "Likes" ∈ cols then cellPV (cellAt r "Likes") else .val 0)))

/-- Step 8: derive `Engagement_Rate = (interactions / Reach) * 100`,
then `.fillna(0).replace([inf, -inf], 0)`. -/
def erStep (t : Table) : Table :=
  if "Engagement_Rate" ∉ t.cols ∧ "Reach" ∈ t.cols then
    setColR t "Engagement_Rate" (fun r =>
      .num (cleanse (pvScale100 (pvDivPV (interPV t.cols r) (cellPV (cellAt r "Reach"))))))
  else t

/-- `preprocess_csv` on the in-memory table. -/
def preprocess (t : Table) (o : Options) : Table :=
  erStep (coerceStep (dedupStep o (nullStep o
    (platformStep (timeStep (stdDatesStep o (dateStep (trimStep t))))))))

/-- `rows_after` of the result payload. -/
def rowsAfter (t : Table) (o : Options) : Nat := (preprocess t o).rows.length

/-- `rows_removed = original_rows - len(df)`. -/
def rowsRemoved (t : Table) (o : Options) : Nat := t.rows.length - rowsAfter t o

/-! ### ml_engine.py -/

/-- The three engagement classes of `train_catboost`. -/
inductive EngCategory where
  | Low : EngCategory
  | Average : EngCategory
  | High : EngCategory
deriving DecidableEq, Repr

/-- `categorize` in `train_catboost`: `<2 → Low`, `<=8 → Average`,
otherwise `High`. -/
def categorize (v : ℚ) : EngCategory :=
  if v < 2 then .Low else if v ≤ 8 then .Average else .High

/-- Python string order (`sorted` over `pd.get_dummies` level names). -/
def strLe (a b : String) : Prop := lexLe a.data b.data = true

instance : DecidableRel strLe := fun a b =>
  inferInstanceAs (Decidable (lexLe a.data b.data = true))

instance : IsTotal String strLe :=
  ⟨fun a b => lexLe_total a.data b.data⟩

instance : IsTrans String strLe :=
  ⟨fun a b c => lexLe_trans a.data b.data c.data⟩

/-- Histogram entries ordered by Python string comparison on the label
(`sorted(dist.items(), key=lambda x: x[0])`). -/
def pairLe (p q : String × Nat) : Prop := strLe p.1 q.1

instance : DecidableRel pairLe := fun p q =>
  inferInstanceAs (Decidable (lexLe p.1.data q.1.data = true))

instance : IsTotal (String × Nat) pairLe :=
  ⟨fun p q => lexLe_total p.1.data q.1.data⟩

instance : IsTrans (String × Nat) pairLe :=
  ⟨fun p q r => lexLe_trans p.1.data q.1.data r.1.data⟩

/-- `str()` of a cell (`astype(str)`, dummy level names).  The numeric and
date renderings are stand-ins; every claim exercises only string cells. -/
def cellPyStr : Cell → String
  | .str s => s
  | .num q => toString q.num ++ "/" ++ toString q.den
  | .null => "nan"
  | .date y m d => isoOfDate y m d

/-! #### `_prepare_features`: the feature-column schema -/

def numCanonCols : List String :=
  ["Caption_Length", "Hashtag_count", "Hour", "Day_of_Week"]

def altPairs : List (String × String) :=
  [("caption_length", "Caption_Length"), ("hashtag_count", "Hashtag_count"),
   ("hour", "Hour"), ("day_of_week", "Day_of_Week")]

/-- `'X' if 'X' in df.columns else 'x' if 'x' in df.columns else None`. -/
def resolveCol (t : Table) (canon lower : String) : Option String :=
  if canon ∈ t.cols then some canon
  else if lower ∈ t.cols then some lower
  else none

/-- The numeric passthrough columns with their source column: first the
canonical names present, then (in `alt_map` order) each canonical name not
yet present whose lowercase alternate is a column.  (`canonical not in
df_features.columns` is equivalent to `canonical not in df.columns` here,
because the canonical loop added exactly the present canonical names and
the alternates target pairwise distinct canonical names.) -/
def prepareNumericSpec (t : Table) : List (String × String) :=
  (numCanonCols.filter (· ∈ t.cols)).map (fun c => (c, c))
  ++ altPairs.filterMap (fun p =>
      if p.2 ∉ t.cols ∧ p.1 ∈ t.cols then some (p.2, p.1) else none)

def prepareNumericCols (t : Table) : List String :=
  (prepareNumericSpec t).map Prod.fst

def sortedDedupStr (l : List String) : List String :=
  List.insertionSort strLe l.dedup

/-- The distinct non-null stringified values of a column
(`pd.get_dummies` levels, in sorted order). -/
def colValuesStr (t : Table) (c : String) : List String :=
  t.rows.filterMap (fun r =>
    match cellAt r c with
    | .null => none
    | v => some (cellPyStr v))

/-- Indicator column names produced by `pd.get_dummies(df[src], prefix=pfx)`. -/
def dummyCols (t : Table) (pfx src : String) : List String :=
  (sortedDedupStr (colValuesStr t src)).map (fun v => pfx ++ "_" ++ v)

/-- The full feature-column list: numeric passthroughs, then the `Platform_*`
dummies, then the `Content_Type_*` dummies, in construction order. -/
def prepareFeatureCols (t : Table) : List String :=
  prepareNumericCols t
  ++ (match resolveCol t "Platform" "platform" with
      | some src => dummyCols t "Platform" src
      | none => [])
  ++ (match resolveCol t "Content_Type" "content_type" with
      | some src => dummyCols t "Content_Type" src
      | none => [])

/-- One row of the feature matrix: numeric passthrough values
(`to_numeric(...).fillna(0)`) then the one-hot indicators. -/
def dummyPairs (t : Table) (pfx src : String) (r : Row) : Row :=
  (sortedDedupStr (colValuesStr t src)).map (fun v =>
    (pfx ++ "_" ++ v,
     Cell.num (if cellAt r src ≠ .null ∧ cellPyStr (cellAt r src) = v then 1 else 0)))

def featureRow (t : Table) (r : Row) : Row :=
  (prepareNumericSpec t).map (fun p => (p.1, coerceCell (cellAt r p.2)))
  ++ (match resolveCol t "Platform" "platform" with
      | some src => dummyPairs t "Platform" src r
      | none => [])
  ++ (match resolveCol t "Content_Type" "content_type" with
      | some src => dummyPairs t "Content_Type" src r
      | none => [])

/-- `_prepare_features`: the feature matrix and
`feature_cols = list(df_features.columns)`. -/
def prepareFeatures (t : Table) : Table × List String :=
  (⟨prepareFeatureCols t, t.rows.map (featureRow t)⟩, prepareFeatureCols t)

/-! #### The Predictor input vector (`get_insights`, model sections) -/

def strStartsWith (s pre : String) : Bool := pre.data.isPrefixOf s.data

def replaceFuel (pat : List Char) : Nat → List Char → List Char
  | 0, s => s
  | _ + 1, [] => []
  | fuel + 1, c :: rest =>
    if pat.isPrefixOf (c :: rest) ∧ pat ≠ [] then
      replaceFuel pat fuel ((c :: rest).drop pat.length)
    else c :: replaceFuel pat fuel rest

/-- Python `col.replace(pat, '')` for nonempty `pat`: removes every
non-overlapping occurrence scanning left to right (not only a prefix). -/
def replaceAll (s pat : String) : String := ⟨replaceFuel pat.data s.data.length s.data⟩

/-- The suffix after the literal prefix (the claim's reading of
`col.replace('Platform_', '')`). -/
def dropPfx (s pre : String) : String := ⟨s.data.drop pre.data.length⟩

/-- `pd.to_numeric(col, errors='coerce')` then dropping the NaNs: the inputs
of `.median()` (which skips NaN) and of `.dropna()`. -/
def colNumsCoerced (t : Table) (c : String) : List ℚ :=
  t.rows.filterMap (fun r =>
    match toNumCell (cellAt r c) with
    | .num q => some q
    | _ => none)

/-- One entry of the Predictor input vector (`get_insights`, both the
regression and the classification sections build it identically). -/
def inputVal (tbl : Table) (platform content_type : String) (col : String) : ℚ :=
  if strStartsWith col "Platform_" then
    if platform ≠ "" ∧ replaceAll col "Platform_" = platform then 1 else 0
  else if strStartsWith col "Content_Type_" then
    if content_type ≠ "" ∧ replaceAll col "Content_Type_" = content_type then 1 else 0
  else if col ∈ tbl.cols then
    match seriesMedian (colNumsCoerced tbl col) with
    | some v => v
    | none => 0
  else 0

/-- The single-row input vector, assembled in the bundle's column order
(`pd.DataFrame([input_row])[feature_columns]`). -/
def buildInputRow (featureColumns : List String) (tbl : Table)
    (platform content_type : String) : List (String × ℚ) :=
  featureColumns.map (fun col => (col, inputVal tbl platform content_type col))

/-! #### `get_insights`: filtering and the individual insight fields -/

def colHasStrValue (t : Table) (c v : String) : Bool :=
  t.rows.any (fun r => cellAt r c == Cell.str v)

def filterBy (t : Table) (c v : String) : Table :=
  ⟨t.cols, t.rows.filter (fun r => cellAt r c == Cell.str v)⟩

/-- The platform / content-type filtering at the top of `get_insights`,
including the fallback to the unfiltered table when nothing matches. -/
def filteredTable (t : Table) (platform content_type : String) : Table :=
  let f1 := match resolveCol t "Platform" "platform" with
    | some c => if platform ≠ "" ∧ colHasStrValue t c platform
        then filterBy t c platform else t
    | none => t
  let f2 := match resolveCol t "Content_Type" "content_type" with
    | some c => if content_type ≠ "" ∧ colHasStrValue t c content_type
        then filterBy f1 c content_type else f1
    | none => f1
  if f2.rows.length = 0 then t else f2

def resolveEng (t : Table) : Option String :=
  resolveCol t "Engagement_Rate" "engagement_rate"

/-- The histogram bucket of one engagement value: `int(val // 2) * 2`. -/
def bucketOf (v : ℚ) : ℤ := 2 * ⌊v / 2⌋

/-- The bucket label: `f"{bucket}-{bucket + 2}%"`. -/
def bucketLabel (b : ℤ) : String := toString b ++ "-" ++ toString (b + 2) ++ "%"

/-- `dist[key] = dist.get(key, 0) + 1` on an insertion-ordered dict. -/
def bumpKey (k : String) : List (String × Nat) → List (String × Nat)
  | [] => [(k, 1)]
  | p :: rest => if p.1 = k then (p.1, p.2 + 1) :: rest else p :: bumpKey k rest

def distCounts (vals : List ℚ) : List (String × Nat) :=
  vals.foldl (fun d v => bumpKey (bucketLabel (bucketOf v)) d) []

/-- `sorted(dist.items(), key=lambda x: x[0])`: sorting by the label string.
The dict keys are pairwise distinct, so any sorting algorithm gives the
same list as Python's. -/
def sortPairs (l : List (String × Nat)) : List (String × Nat) :=
  List.insertionSort pairLe l

def engagementDistribution (vals : List ℚ) : List (String × Nat) :=
  sortPairs (distCounts vals)

/-! #### Hashtag tokenization -/

def isSepChar (c : Char) : Bool := c.isWhitespace || c == ','

/-- `re.split(r'[\s,]+', s)`: split at each maximal run of whitespace and
commas, keeping an empty token at either end when the string starts or ends
with a separator. -/
def splitRuns : List Char → List (List Char)
  | [] => [[]]
  | c :: rest =>
    if isSepChar c then
      match rest with
      | [] => [[], []]
      | d :: _ =>
        if isSepChar d then splitRuns rest else [] :: splitRuns rest
    else
      match splitRuns rest with
      | tok :: ts => (c :: tok) :: ts
      | [] => [[c]]

/-- Tokenization of a hashtags field: regex split, drop tokens whose strip
is empty, strip the rest (`get_insights`, hashtag section). -/
def tokenizeHashtags (s : String) : List String :=
  ((splitRuns s.data).filter (fun tok => trimChars tok ≠ [])).map
    (fun tok => ⟨trimChars tok⟩)

/-- All tokens of the (exploded) hashtag column; the `groupby` count of a
token is its number of occurrences here. -/
def hashtagTokens (t : Table) (hc : String) : List String :=
  t.rows.flatMap (fun r => tokenizeHashtags (cellPyStr (cellAt r hc)))

def countToken (tokens : List String) (k : String) : Nat := tokens.count k

/-! #### Top posts and historical reach -/

/-- Python `int()` truncation toward zero. -/
def truncQ (q : ℚ) : ℤ := if 0 ≤ q then ⌊q⌋ else ⌈q⌉

/-- Python `round(x, 2)` (half-to-even), on exact rationals. -/
def roundHalfEven (x : ℚ) : ℤ :=
  if x - ⌊x⌋ < 1/2 then ⌊x⌋
  else if x - ⌊x⌋ > 1/2 then ⌊x⌋ + 1
  else if ⌊x⌋ % 2 = 0 then ⌊x⌋ else ⌊x⌋ + 1

def round2 (q : ℚ) : ℚ := (roundHalfEven (q * 100) : ℚ) / 100

/-- Totalized model of Python `float(...)` on a cell; a non-numeric string
or a missing value raises in the source and is outside every claim's
scope. -/
def floatOfCell : Cell → ℚ
  | .num q => q
  | .str s => (parseNumStr s).getD 0
  | .null => 0
  | .date y m d => ((y * 10000 + m * 100 + d : Nat) : ℚ)

structure Post where
  platform : String
  content_type : String
  engagement_rate : ℚ
  reach : Option ℤ
deriving DecidableEq, Repr

/-- `pd.to_numeric(filtered[eng_col], errors='coerce')`: one optional value
per row, in row order. -/
def engNumeric (t : Table) (ec : String) : List (Option ℚ) :=
  t.rows.map (fun r =>
    match toNumCell (cellAt r ec) with
    | .num q => some q
    | _ => none)

/-- `Series.nlargest(k)`: indices of the `k` largest non-NaN values,
ties broken by first occurrence. -/
def nlargestRel (p q : Nat × ℚ) : Prop := p.2 > q.2 ∨ (p.2 = q.2 ∧ p.1 ≤ q.1)

instance : DecidableRel nlargestRel := fun p q =>
  inferInstanceAs (Decidable (p.2 > q.2 ∨ (p.2 = q.2 ∧ p.1 ≤ q.1)))

def nlargestIdx (k : Nat) (vals : List (Option ℚ)) : List Nat :=
  ((List.insertionSort nlargestRel
    (vals.enum.filterMap (fun p => p.2.map (fun v => (p.1, v))))).take k).map Prod.fst

/-- One entry of `insights['top_posts']`.  The `reach` field exists exactly
when the column named `'Reach'` does. -/
def mkPost (t : Table) (pcol ccol : Option String) (ec : String) (r : Row) : Post :=
  { platform :=
      match rowLookup r (pcol.getD "Platform") with
      | some v => cellPyStr v
      | none => "Unknown"
    content_type :=
      match rowLookup r (ccol.getD "Content_Type") with
      | some v => cellPyStr v
      | none => "Unknown"
    engagement_rate :=
      round2 (match rowLookup r ec with
        | some v => floatOfCell v
        | none => 0)
    reach :=
      if "Reach" ∈ t.cols then
        some (truncQ (floatOfCell (cellAt r "Reach")))
      else none }

/-- `insights['top_posts']`: the five rows with the largest numeric
engagement rate of the (already filtered) table. -/
def topPosts (u : Table) : List Post :=
  match resolveEng u with
  | none => []
  | some ec =>
    (nlargestIdx 5 (engNumeric u ec)).filterMap (fun i =>
      (u.rows[i]?).map (mkPost u (resolveCol u "Platform" "platform")
        (resolveCol u "Content_Type" "content_type") ec))

def listMean (l : List ℚ) : ℚ := l.sum / (l.length : ℚ)

/-- `insights['predicted_reach']`: the historical mean reach, resolving the
column `'Reach'` first and `'reach'` second. -/
def predictedReach (t : Table) : ℤ :=
  if "Reach" ∈ t.cols then
    match colNumsCoerced t "Reach" with
    | [] => 0
    | vs => truncQ (listMean vs)
  else if "reach" ∈ t.cols then
    match colNumsCoerced t "reach" with
    | [] => 0
    | vs => truncQ (listMean vs)
  else 0

/-! #### Dashboard scatter sample sizes -/

/-- `filtered_df.sample(n=min(100, len(filtered_df)), random_state=42)`:
number of points of the reach-vs-engagement scatter in
`social-pulse-react-app/backend/api/ml_engine.py`. -/
def scatterSampleLen (n : Nat) : Nat := min 100 n

/-- `df.sample(min(len(df), 200)) if len(df) > 200 else df`: number of
points of the scatter in the `social_pulse` copy of `ml_engine.py`. -/
def scatterSampleLen2 (n : Nat) : Nat := if n > 200 then min n 200 else n

/-! #### The insight report (`get_insights`)

The two model predictions depend on the persisted bundles and the external
boosting libraries; their load-and-infer attempts enter the model as an
explicit outcome (`missing` file, caught exception, or a value), exactly
the three ways the `try`/`except` blocks can end.  Only the fields the
claims reason about are embedded; the remaining fields are built by the
same independent per-field pattern. -/

inductive PredictOutcome (α : Type) where
  | missing : PredictOutcome α
  | failed (msg : String) : PredictOutcome α
  | ok (v : α) : PredictOutcome α

structure InsightReport where
  predicted_engagement : Option ℚ
  predicted_class : Option String
  predicted_reach : ℤ
  engagement_distribution : List (String × Nat)
  top_posts : List Post

def getInsights (t : Table) (platform content_type : String)
    (reg : PredictOutcome ℚ) (cls : PredictOutcome String) : InsightReport :=
  { predicted_engagement :=
      match reg with
      | .ok v => some (round2 v)
      | _ => none
    predicted_class :=
      match cls with
      | .ok s => some s
      | _ => none
    predicted_reach := predictedReach (filteredTable t platform content_type)
    engagement_distribution :=
      match resolveEng (filteredTable t platform content_type) with
      | some ec => engagementDistribution
          (colNumsCoerced (filteredTable t platform content_type) ec)
      | none => []
    top_posts := topPosts (filteredTable t platform content_type) }

/-! ### Derived notions used to state the claims -/

/-- The numeric value of a cell; counters are numeric after step 7. -/
def qCell : Cell → ℚ
  | .num q => q
  | _ => 0

/-- `Likes + Comments + Shares + Saves` with absent columns contributing 0,
in the accumulation order of step 8. -/
def interQ (cols : List String) (r : Row) : ℚ :=
  (if "Likes" ∈ cols then qCell (cellAt r "Likes") else 0)
  + (if "Comments" ∈ cols then qCell (cellAt r "Comments") else 0)
  + (if "Shares" ∈ cols then qCell (cellAt r "Shares") else 0)
  + (if "Saves" ∈ cols then qCell (cellAt r "Saves") else 0)

/-- Value stored under a key of a histogram dictionary. -/
def lookupCnt : List (String × Nat) → String → Option Nat
  | [], _ => none
  | p :: rest, k => if p.1 = k then some p.2 else lookupCnt rest k

def keysOf (d : List (String × Nat)) : List String := d.map Prod.fst

/-! ### Concrete tables used by counterexamples and witnesses -/

/-- Two rows whose `Likes` strings are distinct but both unparsable:
numeric coercion (step 7, after deduplication) collapses them to `0.0`. -/
def tDup : Table := ⟨["Likes"], [[("Likes", .str "abc")], [("Likes", .str "def")]]⟩

def oDedup : Options := ⟨false, true, false⟩

/-- Two rows that stay distinct through cleaning. -/
def tDistinct : Table := ⟨["Likes"], [[("Likes", .num 1)], [("Likes", .num 2)]]⟩

/-- One post with `Likes` and `Reach` but no engagement-rate column. -/
def tReach : Table :=
  ⟨["Likes", "Reach"], [[("Likes", .num 6), ("Reach", .num 4)]]⟩

def oPlain : Options := ⟨false, false, false⟩

/-- A table whose reach lives only under the lowercase name `'reach'`. -/
def tLowReach : Table :=
  ⟨["engagement_rate", "reach"],
    [[("engagement_rate", .num 5), ("reach", .num 100)]]⟩

/-- All pairs at a key agree with the first one and the key exists. -/
def keyUniform (c : String) (r : Row) : Prop :=
  hasKey r c = true ∧ ∀ p ∈ r, p.1 = c → p.2 = cellAt r c

/-! #### Trim-fixedness of all names the pipeline produces -/

def trimFixedT (t : Table) : Prop :=
  (∀ c ∈ t.cols, trimStr c = c) ∧ ∀ r ∈ t.rows, ∀ p ∈ r, trimStr p.1 = p.1


/-! ### Theorems -/

theorem head?_dropWhile_not {p : Char → Bool} :
    ∀ (l : List Char) (a : Char), (l.dropWhile p).head? = some a → p a = false := by
  intro l
  induction l with
  | nil => intro a h; simp [List.dropWhile] at h
  | cons x xs ih =>
    intro a h
    by_cases hx : p x
    · rw [List.dropWhile_cons_of_pos hx] at h; exact ih a h
    · rw [List.dropWhile_cons_of_neg hx] at h
      simp at h
      subst h
      simpa using hx

theorem dropWhile_eq_self_of_head {p : Char → Bool} (l : List Char)
    (h : ∀ a, l.head? = some a → p a = false) : l.dropWhile p = l := by
  cases l with
  | nil => rfl
  | cons x xs =>
    have hx : p x = false := h x rfl
    rw [List.dropWhile_cons_of_neg (by simp [hx])]

theorem getLast?_of_suffix {l s : List Char} (h : s <:+ l) (hs : s ≠ []) :
    l.getLast? = s.getLast? := by
  rcases h with ⟨w, rfl⟩
  rw [List.getLast?_append]
  cases hg : s.getLast? with
  | none => exact absurd (List.getLast?_eq_none_iff.mp hg) hs
  | some a => rfl

theorem getLast?_dropWhile {p : Char → Bool} (l : List Char)
    (h : l.dropWhile p ≠ []) : (l.dropWhile p).getLast? = l.getLast? :=
  (getLast?_of_suffix (List.dropWhile_suffix p) h).symm

theorem trimChars_head {l : List Char} {a : Char}
    (h : (trimChars l).head? = some a) : isWS a = false := by
  unfold trimChars at h
  rw [List.head?_reverse] at h
  set u := (l.dropWhile isWS).reverse with hu
  have hne : u.dropWhile isWS ≠ [] := by
    intro hnil
    rw [hnil] at h
    simp at h
  rw [getLast?_dropWhile u hne, hu, List.getLast?_reverse] at h
  exact head?_dropWhile_not _ _ h

theorem trimChars_getLast {l : List Char} {a : Char}
    (h : (trimChars l).getLast? = some a) : isWS a = false := by
  unfold trimChars at h
  rw [List.getLast?_reverse] at h
  exact head?_dropWhile_not _ _ h

/-- Stripping whitespace is idempotent. -/
theorem trimChars_idem (l : List Char) : trimChars (trimChars l) = trimChars l := by
  set m := trimChars l with hm
  have h1 : m.dropWhile isWS = m :=
    dropWhile_eq_self_of_head m (fun a ha => trimChars_head (hm ▸ ha))
  have h2 : m.reverse.dropWhile isWS = m.reverse := by
    refine dropWhile_eq_self_of_head m.reverse (fun a ha => ?_)
    rw [List.head?_reverse] at ha
    exact trimChars_getLast (hm ▸ ha)
  unfold trimChars
  rw [h1, h2, List.reverse_reverse]

theorem trimStr_idem (s : String) : trimStr (trimStr s) = trimStr s := by
  unfold trimStr
  simp [trimChars_idem]

theorem rowLookup_map_set (r : Row) (c : String) (v : Cell) :
    rowLookup (r.map (fun p => if p.1 = c then (p.1, v) else p)) c =
      (rowLookup r c).map (fun _ => v) := by
  induction r with
  | nil => rfl
  | cons p r ih =>
    by_cases hp : p.1 = c
    · simp [rowLookup, hp]
    · simp [rowLookup, hp, ih]

theorem rowLookup_map_set_ne (r : Row) {c b : String} (v : Cell) (h : b ≠ c) :
    rowLookup (r.map (fun p => if p.1 = c then (p.1, v) else p)) b = rowLookup r b := by
  induction r with
  | nil => rfl
  | cons p r ih =>
    by_cases hp : p.1 = c
    · have hpb : p.1 ≠ b := by rw [hp]; exact Ne.symm h
      simp [rowLookup, hp, hpb, Ne.symm h, ih]
    · by_cases hb : p.1 = b
      · simp [rowLookup, hp, hb, h]
      · simp [rowLookup, hp, hb, ih]

theorem rowLookup_append_single (r : Row) (c : String) (v : Cell)
    (h : rowLookup r c = none) : rowLookup (r ++ [(c, v)]) c = some v := by
  induction r with
  | nil => simp [rowLookup]
  | cons p r ih =>
    rw [rowLookup] at h
    by_cases hp : p.1 = c
    · rw [if_pos hp] at h; exact absurd h (by simp)
    · rw [if_neg hp] at h
      rw [List.cons_append, rowLookup, if_neg hp]
      exact ih h

theorem rowLookup_append_single_ne (r : Row) {c b : String} (v : Cell) (h : b ≠ c) :
    rowLookup (r ++ [(c, v)]) b = rowLookup r b := by
  induction r with
  | nil => simp [rowLookup, Ne.symm h]
  | cons p r ih =>
    by_cases hp : p.1 = b
    · simp [rowLookup, hp]
    · simp [rowLookup, hp, ih]

/-- Writing a cell then reading it back gives the written value. -/
theorem cellAt_set_self (r : Row) (c : String) (v : Cell) :
    cellAt (setCellRow r c v) c = v := by
  unfold setCellRow
  by_cases h : hasKey r c
  · rw [if_pos h, cellAt, rowLookup_map_set]
    unfold hasKey at h
    rcases Option.isSome_iff_exists.mp (by simpa using h) with ⟨w, hw⟩
    simp [hw]
  · rw [if_neg h, cellAt, rowLookup_append_single]
    · rfl
    · unfold hasKey at h
      rcases hl : rowLookup r c with _ | w
      · rfl
      · exact absurd (by simp [hl] : (rowLookup r c).isSome = true) h

/-- Writing one column leaves every other column unchanged. -/
theorem cellAt_set_ne (r : Row) {c b : String} (v : Cell) (h : b ≠ c) :
    cellAt (setCellRow r c v) b = cellAt r b := by
  unfold setCellRow
  by_cases hk : hasKey r c
  · rw [if_pos hk, cellAt, rowLookup_map_set_ne _ _ h]; rfl
  · rw [if_neg hk, cellAt, rowLookup_append_single_ne _ _ h]; rfl

theorem map_set_eq_self {r : Row} {c : String} {v : Cell}
    (h2 : ∀ p ∈ r, p.1 = c → p.2 = v) :
    r.map (fun p => if p.1 = c then (p.1, v) else p) = r := by
  induction r with
  | nil => rfl
  | cons p r ih =>
    have hr : ∀ q ∈ r, q.1 = c → q.2 = v := fun q hq => h2 q (List.mem_cons_of_mem p hq)
    rw [List.map_cons, ih hr]
    by_cases hpc : p.1 = c
    · rw [if_pos hpc, ← h2 p (List.mem_cons_self p r) hpc]
    · rw [if_neg hpc]

/-- Rewriting a key already present, with the value every matching pair
already holds, is the identity. -/
theorem setCellRow_eq_self {r : Row} {c : String} {v : Cell}
    (h1 : hasKey r c = true) (h2 : ∀ p ∈ r, p.1 = c → p.2 = v) :
    setCellRow r c v = r := by
  unfold setCellRow
  rw [if_pos h1, map_set_eq_self h2]

/-! ### Structural lemmas about rows, columns and the pipeline steps -/

theorem map_eq_self_of {α : Type} (l : List α) (g : α → α) (h : ∀ x ∈ l, g x = x) :
    l.map g = l := by
  induction l with
  | nil => rfl
  | cons x l ih =>
    rw [List.map_cons, h x (List.mem_cons_self x l), ih (fun y hy => h y (List.mem_cons_of_mem x hy))]

theorem setColR_rows (t : Table) (c : String) (f : Row → Cell) :
    (setColR t c f).rows = t.rows.map (fun r => setCellRow r c (f r)) := rfl

theorem setColR_cols (t : Table) (c : String) (f : Row → Cell) :
    (setColR t c f).cols = if c ∈ t.cols then t.cols else t.cols ++ [c] := rfl

theorem mem_setColR_cols {t : Table} {c b : String} {f : Row → Cell} :
    b ∈ (setColR t c f).cols ↔ b ∈ t.cols ∨ b = c := by
  rw [setColR_cols]
  by_cases h : c ∈ t.cols
  · rw [if_pos h]
    constructor
    · exact Or.inl
    · rintro (hb | rfl) <;> assumption
  · rw [if_neg h]
    simp

theorem setColR_cols_of_mem {t : Table} {c : String} {f : Row → Cell} (h : c ∈ t.cols) :
    (setColR t c f).cols = t.cols := by rw [setColR_cols, if_pos h]

theorem mem_key_isSome {r : Row} {p : String × Cell} (hp : p ∈ r) :
    (rowLookup r p.1).isSome := by
  induction r with
  | nil => simp at hp
  | cons q r ih =>
    rcases List.mem_cons.mp hp with rfl | hp2
    · simp [rowLookup]
    · by_cases hq : q.1 = p.1
      · simp [rowLookup, hq]
      · simp [rowLookup, hq, ih hp2]

theorem rowLookup_set_self (r : Row) (c : String) (v : Cell) :
    rowLookup (setCellRow r c v) c = some v := by
  unfold setCellRow
  by_cases h : hasKey r c
  · rw [if_pos h, rowLookup_map_set]
    unfold hasKey at h
    rcases Option.isSome_iff_exists.mp (by simpa using h) with ⟨w, hw⟩
    simp [hw]
  · rw [if_neg h]
    unfold hasKey at h
    rcases hl : rowLookup r c with _ | w
    · exact rowLookup_append_single r c v hl
    · exact absurd (by simp [hl] : (rowLookup r c).isSome = true) (by simpa using h)

theorem hasKey_set_self (r : Row) (c : String) (v : Cell) :
    hasKey (setCellRow r c v) c = true := by
  unfold hasKey; rw [rowLookup_set_self]; rfl

theorem hasKey_set_mono {r : Row} {b : String} (c : String) (v : Cell)
    (h : hasKey r b = true) : hasKey (setCellRow r c v) b = true := by
  by_cases hbc : b = c
  · subst hbc; exact hasKey_set_self r b v
  · unfold setCellRow
    by_cases hk : hasKey r c
    · rw [if_pos hk]
      unfold hasKey at h ⊢
      rwa [rowLookup_map_set_ne _ _ hbc]
    · rw [if_neg hk]
      unfold hasKey at h ⊢
      rwa [rowLookup_append_single_ne _ _ hbc]

theorem pairs_setCellRow {r : Row} {c : String} {v : Cell} :
    ∀ p ∈ setCellRow r c v, p.1 = c → p.2 = v := by
  intro p hp hpc
  unfold setCellRow at hp
  by_cases h : hasKey r c
  · rw [if_pos h] at hp
    rcases List.mem_map.mp hp with ⟨q, _, hq⟩
    by_cases hqc : q.1 = c
    · rw [if_pos hqc] at hq; rw [← hq]
    · rw [if_neg hqc] at hq
      exact absurd (hq ▸ hpc) hqc
  · rw [if_neg h] at hp
    rcases List.mem_append.mp hp with hp2 | hp2
    · exact absurd (hpc ▸ mem_key_isSome hp2) (by simpa [hasKey] using h)
    · rw [List.mem_singleton.mp hp2]

theorem ku_set_self (r : Row) (c : String) (v : Cell) :
    keyUniform c (setCellRow r c v) := by
  refine ⟨hasKey_set_self r c v, fun p hp hpc => ?_⟩
  rw [pairs_setCellRow p hp hpc, cellAt_set_self]

theorem ku_set {r : Row} {c : String} (b : String) (v : Cell)
    (h : keyUniform c r) : keyUniform c (setCellRow r b v) := by
  by_cases hbc : b = c
  · subst hbc; exact ku_set_self r b v
  · refine ⟨hasKey_set_mono b v h.1, fun p hp hpc => ?_⟩
    rw [cellAt_set_ne _ _ (Ne.symm hbc)]
    unfold setCellRow at hp
    by_cases hk : hasKey r b
    · rw [if_pos hk] at hp
      rcases List.mem_map.mp hp with ⟨q, hq, hqe⟩
      by_cases hqb : q.1 = b
      · rw [if_pos hqb] at hqe
        rw [← hqe] at hpc
        exact absurd (hqb ▸ hpc) hbc
      · rw [if_neg hqb] at hqe
        exact h.2 p (hqe ▸ hq) hpc
    · rw [if_neg hk] at hp
      rcases List.mem_append.mp hp with hp2 | hp2
      · exact h.2 p hp2 hpc
      · rw [List.mem_singleton.mp hp2] at hpc
        exact absurd hpc hbc

theorem setCellRow_id_of_ku {r : Row} {c : String} (h : keyUniform c r) :
    setCellRow r c (cellAt r c) = r :=
  setCellRow_eq_self h.1 h.2

/-- `setColR` at a present column, writing the value each row already holds,
is the identity. -/
theorem setColR_id {t : Table} {c : String} {f : Row → Cell} (hc : c ∈ t.cols)
    (h : ∀ r ∈ t.rows, keyUniform c r ∧ f r = cellAt r c) :
    setColR t c f = t := by
  rcases t with ⟨cols, rows⟩
  unfold setColR
  congr 1
  · exact if_pos hc
  · refine map_eq_self_of _ _ (fun r hr => ?_)
    rw [(h r hr).2, setCellRow_id_of_ku (h r hr).1]

/-! #### Deduplication lemmas -/

theorem mem_dropDupsAux (r : Row) :
    ∀ (l seen : List Row), r ∈ dropDupsAux seen l ↔ (r ∈ l ∧ r ∉ seen) := by
  intro l
  induction l with
  | nil => intro seen; simp [dropDupsAux]
  | cons x rest ih =>
    intro seen
    unfold dropDupsAux
    by_cases hx : x ∈ seen
    · rw [if_pos hx, ih seen]
      constructor
      · rintro ⟨h1, h2⟩; exact ⟨List.mem_cons_of_mem x h1, h2⟩
      · rintro ⟨h1, h2⟩
        rcases List.mem_cons.mp h1 with rfl | h1
        · exact absurd hx h2
        · exact ⟨h1, h2⟩
    · rw [if_neg hx]
      constructor
      · intro h
        rcases List.mem_cons.mp h with rfl | h
        · exact ⟨List.mem_cons_self r rest, hx⟩
        · rcases (ih (x :: seen)).mp h with ⟨h1, h2⟩
          exact ⟨List.mem_cons_of_mem x h1,
            fun hr => h2 (List.mem_cons_of_mem x hr)⟩
      · rintro ⟨h1, h2⟩
        rcases List.mem_cons.mp h1 with rfl | h1
        · exact List.mem_cons_self r _
        · by_cases hrx : r = x
          · subst hrx; exact List.mem_cons_self r _
          · exact List.mem_cons_of_mem x ((ih (x :: seen)).mpr
              ⟨h1, fun hr => (List.mem_cons.mp hr).elim hrx h2⟩)

theorem mem_dropDups {r : Row} {l : List Row} : r ∈ dropDups l ↔ r ∈ l := by
  rw [dropDups, mem_dropDupsAux]
  simp

theorem dropDupsAux_eq_self : ∀ (l seen : List Row), l.Nodup →
    (∀ r ∈ l, r ∉ seen) → dropDupsAux seen l = l := by
  intro l
  induction l with
  | nil => intro seen _ _; rfl
  | cons x rest ih =>
    intro seen hnd hs
    unfold dropDupsAux
    rw [if_neg (hs x (List.mem_cons_self x rest))]
    congr 1
    refine ih (x :: seen) (List.Nodup.of_cons hnd) (fun r hr => ?_)
    intro hmem
    rcases List.mem_cons.mp hmem with rfl | h2
    · exact (List.nodup_cons.mp hnd).1 hr
    · exact hs r (List.mem_cons_of_mem x hr) h2

theorem dropDups_eq_self {l : List Row} (h : l.Nodup) : dropDups l = l :=
  dropDupsAux_eq_self l [] h (by simp)

/-! #### Coercion-step lemmas -/

theorem cellAt_coerce_fold_ne (cols : List String) :
    ∀ (L : List String) (r : Row) {c : String}, c ∉ L →
    cellAt (L.foldl (fun acc c2 =>
      if c2 ∈ cols then setCellRow acc c2 (coerceCell (cellAt acc c2)) else acc) r) c
      = cellAt r c := by
  intro L
  induction L with
  | nil => intro r c _; rfl
  | cons a L ih =>
    intro r c hc
    have hca : c ≠ a := fun h => hc (h ▸ List.mem_cons_self a L)
    have hcL : c ∉ L := fun h => hc (List.mem_cons_of_mem a h)
    rw [List.foldl_cons]
    by_cases ha : a ∈ cols
    · rw [if_pos ha, ih _ hcL, cellAt_set_ne _ _ hca]
    · rw [if_neg ha, ih _ hcL]

theorem cellAt_coerceRow_ne {cols : List String} {r : Row} {c : String}
    (h : c ∉ numericColumns) : cellAt (coerceRow cols r) c = cellAt r c :=
  cellAt_coerce_fold_ne cols numericColumns r h

theorem ku_coerce_fold (cols : List String) :
    ∀ (L : List String) (r : Row) {c : String}, keyUniform c r →
    keyUniform c (L.foldl (fun acc c2 =>
      if c2 ∈ cols then setCellRow acc c2 (coerceCell (cellAt acc c2)) else acc) r) := by
  intro L
  induction L with
  | nil => intro r c h; exact h
  | cons a L ih =>
    intro r c h
    rw [List.foldl_cons]
    by_cases ha : a ∈ cols
    · rw [if_pos ha]; exact ih _ (ku_set a _ h)
    · rw [if_neg ha]; exact ih _ h

theorem ku_coerceRow {cols : List String} {r : Row} {c : String}
    (h : keyUniform c r) : keyUniform c (coerceRow cols r) :=
  ku_coerce_fold cols numericColumns r h

theorem toNumCell_num_or_null (x : Cell) :
    (∃ q, toNumCell x = Cell.num q) ∨ toNumCell x = Cell.null := by
  cases x with
  | null => right; rfl
  | num q => left; exact ⟨q, rfl⟩
  | str s =>
    cases hp : parseNumStr s with
    | none => right; simp [toNumCell, hp]
    | some q => left; exact ⟨q, by simp [toNumCell, hp]⟩
  | date y m d => left; exact ⟨_, rfl⟩

theorem coerceCell_is_num (x : Cell) : ∃ q, coerceCell x = Cell.num q := by
  unfold coerceCell
  rcases toNumCell_num_or_null x with ⟨q, hq⟩ | hq <;> rw [hq]
  · exact ⟨q, rfl⟩
  · exact ⟨0, rfl⟩

theorem coerce_fold_num (cols : List String) {c : String} (hc : c ∈ cols) :
    ∀ (L : List String) (r : Row), (c ∈ L ∨ ∃ q, cellAt r c = Cell.num q) →
    ∃ q, cellAt (L.foldl (fun acc c2 =>
      if c2 ∈ cols then setCellRow acc c2 (coerceCell (cellAt acc c2)) else acc) r) c
      = Cell.num q := by
  intro L
  induction L with
  | nil =>
    intro r h
    rcases h with h | h
    · simp at h
    · exact h
  | cons a L ih =>
    intro r h
    rw [List.foldl_cons]
    by_cases hca : c = a
    · subst hca
      rw [if_pos hc]
      refine ih _ (Or.inr ?_)
      rw [cellAt_set_self]
      exact coerceCell_is_num _
    · have hstep : cellAt (if a ∈ cols then setCellRow r a (coerceCell (cellAt r a)) else r) c
          = cellAt r c := by
        by_cases ha : a ∈ cols
        · rw [if_pos ha, cellAt_set_ne _ _ hca]
        · rw [if_neg ha]
      rcases h with h | h
      · rcases List.mem_cons.mp h with rfl | h
        · exact absurd rfl hca
        · exact ih _ (Or.inl h)
      · exact ih _ (Or.inr (hstep ▸ h))

theorem coerceRow_num {cols : List String} {r : Row} {c : String}
    (hc : c ∈ cols) (hn : c ∈ numericColumns) :
    ∃ q, cellAt (coerceRow cols r) c = Cell.num q :=
  coerce_fold_num cols hc numericColumns r (Or.inl hn)

/-! #### Column-set lemmas for the steps -/

theorem trimStep_cols (t : Table) : (trimStep t).cols = t.cols.map trimStr := rfl

theorem mem_dateStep_cols {t : Table} {b : String}
    (h1 : b ≠ "Day_of_Week") (h2 : b ≠ "Month") :
    b ∈ (dateStep t).cols ↔ b ∈ t.cols := by
  unfold dateStep
  by_cases hd : "Date" ∈ t.cols
  · rw [if_pos hd]
    rw [mem_setColR_cols, mem_setColR_cols, mem_setColR_cols]
    simp only [h1, h2, or_false]
    constructor
    · rintro (hb | rfl)
      · exact hb
      · exact hd
    · exact Or.inl
  · rw [if_neg hd]

theorem mem_stdDatesStep_cols {o : Options} {t : Table} {b : String} :
    b ∈ (stdDatesStep o t).cols ↔ b ∈ t.cols := by
  unfold stdDatesStep
  split
  · rename_i h
    rw [setColR_cols_of_mem h.2]
  · rfl

theorem mem_timeStep_cols {t : Table} {b : String} (h : b ≠ "Hour") :
    b ∈ (timeStep t).cols ↔ b ∈ t.cols := by
  unfold timeStep
  by_cases h1 : "Time" ∈ t.cols
  · rw [if_pos h1, mem_setColR_cols]
    simp [h]
  · rw [if_neg h1]
    by_cases h2 : "hour" ∈ t.cols
    · rw [if_pos h2, mem_setColR_cols]
      simp [h]
    · rw [if_neg h2]

theorem platformStep_cols (t : Table) : (platformStep t).cols = t.cols := by
  unfold platformStep
  by_cases h : "Platform" ∈ t.cols
  · rw [if_pos h, setColR_cols_of_mem h]
  · rw [if_neg h]

theorem dropNullRows_cols (t : Table) : (dropNullRows t).cols = t.cols := rfl

theorem fillColMedian_cols {t : Table} {c : String} (h : c ∈ t.cols) :
    (fillColMedian t c).cols = t.cols := by
  unfold fillColMedian
  split
  · rw [setColR_cols_of_mem h]
  · rfl

theorem fill_fold_cols :
    ∀ (L : List String) (acc : Table), (∀ c ∈ L, c ∈ acc.cols) →
    (L.foldl (fun a c =>
      if a.rows.any (fun r => isNullCell (cellAt r c)) then fillColMedian a c else a) acc).cols
      = acc.cols := by
  intro L
  induction L with
  | nil => intro acc _; rfl
  | cons a L ih =>
    intro acc h
    rw [List.foldl_cons]
    have ha : a ∈ acc.cols := h a (List.mem_cons_self a L)
    have hcols : (if acc.rows.any (fun r => isNullCell (cellAt r a))
        then fillColMedian acc a else acc).cols = acc.cols := by
      split
      · exact fillColMedian_cols ha
      · rfl
    rw [ih _ (fun c hc => hcols ▸ h c (List.mem_cons_of_mem a hc)), hcols]

theorem medianFillStep_cols (t : Table) : (medianFillStep t).cols = t.cols := by
  unfold medianFillStep
  exact fill_fold_cols _ t (fun c hc => List.mem_of_mem_filter hc)

theorem nullStep_cols (o : Options) (t : Table) : (nullStep o t).cols = t.cols := by
  unfold nullStep
  split
  · rw [medianFillStep_cols, dropNullRows_cols]
  · rfl

theorem dedupStep_cols (o : Options) (t : Table) : (dedupStep o t).cols = t.cols := by
  unfold dedupStep
  split <;> rfl

theorem coerceStep_cols (t : Table) : (coerceStep t).cols = t.cols := rfl

theorem mem_erStep_cols {t : Table} {b : String} (h : b ≠ "Engagement_Rate") :
    b ∈ (erStep t).cols ↔ b ∈ t.cols := by
  unfold erStep
  split
  · rw [mem_setColR_cols]
    simp [h]
  · rfl

theorem stdDatesStep_id {o : Options} (h : o.standardizeDates = false) (t : Table) :
    stdDatesStep o t = t := by
  unfold stdDatesStep
  rw [if_neg]
  rw [h]
  simp

theorem nullStep_id {o : Options} (h : o.removeNulls = false) (t : Table) :
    nullStep o t = t := by
  unfold nullStep
  rw [h]
  simp

/-! #### Idempotence of the per-cell transforms -/

theorem parseDateCell_idem (c : Cell) :
    parseDateCell (parseDateCell c) = parseDateCell c := by
  cases c with
  | null => rfl
  | num q => rfl
  | date y m d => rfl
  | str s =>
    show parseDateCell (parseDateCell (.str s)) = parseDateCell (.str s)
    rcases hp : parseISOChars (trimChars s.data) with _ | ⟨y, m, d⟩ <;>
      simp [parseDateCell, hp]

theorem replacePlatform_idem (c : Cell) :
    replacePlatform (replacePlatform c) = replacePlatform c := by
  cases c with
  | str s =>
    show replacePlatform (replacePlatform (.str s)) = replacePlatform (.str s)
    by_cases h : s ∈ platformKeys
    · simp only [replacePlatform, if_pos h]
      rw [if_neg (by decide : ¬ ("X" : String) ∈ platformKeys)]
    · simp only [replacePlatform, if_neg h, if_neg h]
  | null => rfl
  | num q => rfl
  | date y m d => rfl

/-! #### Existential row-map forms of the pre-deduplication steps -/

theorem dateStep_rows_ex (s : Table) :
    ∃ pf : Row → Row, (dateStep s).rows = s.rows.map pf ∧
      (∀ r c, c ≠ "Date" → c ≠ "Day_of_Week" → c ≠ "Month" →
        cellAt (pf r) c = cellAt r c) ∧
      (∀ r c, keyUniform c r → keyUniform c (pf r)) := by
  unfold dateStep
  by_cases hd : "Date" ∈ s.cols
  · rw [if_pos hd]
    refine ⟨fun r =>
      setCellRow (setCellRow (setCellRow r "Date" (parseDateCell (cellAt r "Date")))
          "Day_of_Week" (dowCell (cellAt (setCellRow r "Date" (parseDateCell (cellAt r "Date"))) "Date")))
        "Month" (monthCell (cellAt (setCellRow (setCellRow r "Date" (parseDateCell (cellAt r "Date")))
          "Day_of_Week" (dowCell (cellAt (setCellRow r "Date" (parseDateCell (cellAt r "Date"))) "Date"))) "Date")),
      ?_, ?_, ?_⟩
    · rw [setColR_rows, setColR_rows, setColR_rows, List.map_map, List.map_map]
      rfl
    · intro r c h1 h2 h3
      rw [cellAt_set_ne _ _ h3, cellAt_set_ne _ _ h2, cellAt_set_ne _ _ h1]
    · intro r c h
      exact ku_set _ _ (ku_set _ _ (ku_set _ _ h))
  · rw [if_neg hd]
    exact ⟨id, by rw [List.map_id], fun r c _ _ _ => rfl, fun r c h => h⟩

theorem timeStep_rows_ex (s : Table) :
    ∃ pf : Row → Row, (timeStep s).rows = s.rows.map pf ∧
      (∀ r c, c ≠ "Hour" → cellAt (pf r) c = cellAt r c) ∧
      (∀ r c, keyUniform c r → keyUniform c (pf r)) := by
  unfold timeStep
  by_cases h1 : "Time" ∈ s.cols
  · rw [if_pos h1]
    refine ⟨_, setColR_rows _ _ _, ?_, ?_⟩
    · intro r c hc; exact cellAt_set_ne _ _ hc
    · intro r c h; exact ku_set _ _ h
  · rw [if_neg h1]
    by_cases h2 : "hour" ∈ s.cols
    · rw [if_pos h2]
      refine ⟨_, setColR_rows _ _ _, ?_, ?_⟩
      · intro r c hc; exact cellAt_set_ne _ _ hc
      · intro r c h; exact ku_set _ _ h
    · rw [if_neg h2]
      exact ⟨id, by rw [List.map_id], fun r c _ => rfl, fun r c h => h⟩

theorem platformStep_rows_ex (s : Table) :
    ∃ pf : Row → Row, (platformStep s).rows = s.rows.map pf ∧
      (∀ r c, c ≠ "Platform" → cellAt (pf r) c = cellAt r c) ∧
      (∀ r c, keyUniform c r → keyUniform c (pf r)) := by
  unfold platformStep
  by_cases h : "Platform" ∈ s.cols
  · rw [if_pos h]
    refine ⟨_, setColR_rows _ _ _, ?_, ?_⟩
    · intro r c hc; exact cellAt_set_ne _ _ hc
    · intro r c hku; exact ku_set _ _ hku
  · rw [if_neg h]
    exact ⟨id, by rw [List.map_id], fun r c _ => rfl, fun r c hh => hh⟩

/-- The post-deduplication tail (`coerceStep` then `erStep`) acts on rows by
one function that touches only the numeric columns and the derived
engagement rate. -/
theorem tail_rows_ex (s : Table) {o : Options} (ho : o.deduplicate = true) :
    ∃ tf : Row → Row,
      (erStep (coerceStep (dedupStep o s))).rows = (dropDups s.rows).map tf ∧
      (∀ r c, c ∉ numericColumns → c ≠ "Engagement_Rate" →
        cellAt (tf r) c = cellAt r c) ∧
      (∀ r c, keyUniform c r → keyUniform c (tf r)) := by
  have hded : dedupStep o s = ⟨s.cols, dropDups s.rows⟩ := by
    unfold dedupStep; rw [ho]; simp
  rw [hded]
  unfold erStep
  by_cases hg : "Engagement_Rate" ∉ (coerceStep ⟨s.cols, dropDups s.rows⟩).cols ∧
      "Reach" ∈ (coerceStep ⟨s.cols, dropDups s.rows⟩).cols
  · rw [if_pos hg]
    refine ⟨fun r => setCellRow (coerceRow s.cols r) "Engagement_Rate"
        (.num (cleanse (pvScale100 (pvDivPV (interPV s.cols (coerceRow s.cols r))
          (cellPV (cellAt (coerceRow s.cols r) "Reach")))))), ?_, ?_, ?_⟩
    · rw [setColR_rows]
      unfold coerceStep
      rw [List.map_map]
      rfl
    · intro r c hc1 hc2
      rw [cellAt_set_ne _ _ hc2, cellAt_coerceRow_ne hc1]
    · intro r c h
      exact ku_set _ _ (ku_coerceRow h)
  · rw [if_neg hg]
    refine ⟨coerceRow s.cols, rfl, ?_, ?_⟩
    · intro r c hc1 _
      exact cellAt_coerceRow_ne hc1
    · intro r c h
      exact ku_coerceRow h

/-! #### What the first pipeline run establishes about every row -/

theorem dateStep_inv {s : Table} (hd : "Date" ∈ s.cols) :
    ∀ r ∈ (dateStep s).rows,
      parseDateCell (cellAt r "Date") = cellAt r "Date" ∧
      cellAt r "Day_of_Week" = dowCell (cellAt r "Date") ∧
      cellAt r "Month" = monthCell (cellAt r "Date") ∧
      keyUniform "Date" r ∧ keyUniform "Day_of_Week" r ∧ keyUniform "Month" r := by
  intro r hr
  unfold dateStep at hr
  rw [if_pos hd, setColR_rows, setColR_rows, setColR_rows, List.map_map, List.map_map] at hr
  rcases List.mem_map.mp hr with ⟨r0, _, rfl⟩
  simp only [Function.comp_apply]
  have hDW : ("Date" : String) ≠ "Day_of_Week" := by decide
  have hDM : ("Date" : String) ≠ "Month" := by decide
  have hWM : ("Day_of_Week" : String) ≠ "Month" := by decide
  rw [cellAt_set_ne _ _ hDM, cellAt_set_ne _ _ hDW, cellAt_set_self,
    cellAt_set_ne _ _ hWM, cellAt_set_self, cellAt_set_self]
  refine ⟨parseDateCell_idem _, rfl, rfl, ?_, ?_, ?_⟩
  · exact ku_set _ _ (ku_set _ _ (ku_set_self _ _ _))
  · exact ku_set _ _ (ku_set_self _ _ _)
  · exact ku_set_self _ _ _

theorem timeStep_inv_time {s : Table} (ht : "Time" ∈ s.cols) :
    ∀ r ∈ (timeStep s).rows,
      cellAt r "Hour" =
        (if s.rows.all (fun r0 => parseHourCell (cellAt r0 "Time") == Cell.null)
         then toNumCell (cellAt r "Time") else parseHourCell (cellAt r "Time")) ∧
      keyUniform "Hour" r ∧
      (∃ r0 ∈ s.rows, cellAt r "Time" = cellAt r0 "Time") := by
  intro r hr
  unfold timeStep at hr
  rw [if_pos ht, setColR_rows] at hr
  rcases List.mem_map.mp hr with ⟨r0, hr0, rfl⟩
  have hTH : ("Time" : String) ≠ "Hour" := by decide
  refine ⟨?_, ku_set_self _ _ _, ⟨r0, hr0, cellAt_set_ne _ _ hTH⟩⟩
  rw [cellAt_set_self, cellAt_set_ne _ _ hTH]

theorem timeStep_inv_hour {s : Table} (ht : "Time" ∉ s.cols) (hh : "hour" ∈ s.cols) :
    ∀ r ∈ (timeStep s).rows,
      cellAt r "Hour" = toNumCell (cellAt r "hour") ∧ keyUniform "Hour" r := by
  intro r hr
  unfold timeStep at hr
  rw [if_neg ht, if_pos hh, setColR_rows] at hr
  rcases List.mem_map.mp hr with ⟨r0, _, rfl⟩
  have hTH : ("hour" : String) ≠ "Hour" := by decide
  refine ⟨?_, ku_set_self _ _ _⟩
  rw [cellAt_set_self, cellAt_set_ne _ _ hTH]

theorem platformStep_inv {s : Table} (hp : "Platform" ∈ s.cols) :
    ∀ r ∈ (platformStep s).rows,
      replacePlatform (cellAt r "Platform") = cellAt r "Platform" ∧
      keyUniform "Platform" r := by
  intro r hr
  unfold platformStep at hr
  rw [if_pos hp, setColR_rows] at hr
  rcases List.mem_map.mp hr with ⟨r0, _, rfl⟩
  rw [cellAt_set_self]
  exact ⟨replacePlatform_idem _, ku_set_self _ _ _⟩

theorem keys_setCellRow {r : Row} {c : String} {v : Cell} :
    ∀ p ∈ setCellRow r c v, p.1 = c ∨ ∃ q ∈ r, p.1 = q.1 := by
  intro p hp
  unfold setCellRow at hp
  by_cases h : hasKey r c
  · rw [if_pos h] at hp
    rcases List.mem_map.mp hp with ⟨q, hq, rfl⟩
    by_cases hqc : q.1 = c
    · rw [if_pos hqc]; exact Or.inl hqc
    · rw [if_neg hqc]; exact Or.inr ⟨q, hq, rfl⟩
  · rw [if_neg h] at hp
    rcases List.mem_append.mp hp with hp2 | hp2
    · exact Or.inr ⟨p, hp2, rfl⟩
    · rw [List.mem_singleton.mp hp2]; exact Or.inl rfl

theorem keys_coerce_fold (cols : List String) :
    ∀ (L : List String) (r : Row), ∀ p ∈ (L.foldl (fun acc c2 =>
      if c2 ∈ cols then setCellRow acc c2 (coerceCell (cellAt acc c2)) else acc) r),
      p.1 ∈ L ∨ ∃ q ∈ r, p.1 = q.1 := by
  intro L
  induction L with
  | nil => intro r p hp; exact Or.inr ⟨p, hp, rfl⟩
  | cons a L ih =>
    intro r p hp
    rw [List.foldl_cons] at hp
    by_cases ha : a ∈ cols
    · rw [if_pos ha] at hp
      rcases ih _ p hp with h | ⟨q, hq, hqe⟩
      · exact Or.inl (List.mem_cons_of_mem a h)
      · rcases keys_setCellRow q hq with h2 | ⟨q2, hq2, hq2e⟩
        · exact Or.inl (by rw [hqe, h2]; exact List.mem_cons_self a L)
        · exact Or.inr ⟨q2, hq2, hqe.trans hq2e⟩
    · rw [if_neg ha] at hp
      rcases ih _ p hp with h | h
      · exact Or.inl (List.mem_cons_of_mem a h)
      · exact Or.inr h

theorem trimFixed_trimStep (t : Table) : trimFixedT (trimStep t) := by
  constructor
  · intro c hc
    rcases List.mem_map.mp hc with ⟨c0, _, rfl⟩
    exact trimStr_idem c0
  · intro r hr p hp
    rcases List.mem_map.mp hr with ⟨r0, _, rfl⟩
    rcases List.mem_map.mp hp with ⟨p0, _, rfl⟩
    exact trimStr_idem p0.1

theorem trimFixed_setColR {t : Table} {c : String} {f : Row → Cell}
    (h : trimFixedT t) (hc : trimStr c = c) : trimFixedT (setColR t c f) := by
  constructor
  · intro b hb
    rcases mem_setColR_cols.mp hb with hb2 | rfl
    · exact h.1 b hb2
    · exact hc
  · intro r hr p hp
    rw [setColR_rows] at hr
    rcases List.mem_map.mp hr with ⟨r0, hr0, rfl⟩
    rcases keys_setCellRow p hp with rfl | ⟨q, hq, hqe⟩
    · exact hc
    · rw [hqe]; exact h.2 r0 hr0 q hq

theorem trimFixed_dateStep {t : Table} (h : trimFixedT t) : trimFixedT (dateStep t) := by
  unfold dateStep
  split
  · exact trimFixed_setColR (trimFixed_setColR (trimFixed_setColR h (by decide))
      (by decide)) (by decide)
  · exact h

theorem trimFixed_timeStep {t : Table} (h : trimFixedT t) : trimFixedT (timeStep t) := by
  unfold timeStep
  split
  · exact trimFixed_setColR h (by decide)
  · split
    · exact trimFixed_setColR h (by decide)
    · exact h

theorem trimFixed_platformStep {t : Table} (h : trimFixedT t) :
    trimFixedT (platformStep t) := by
  unfold platformStep
  split
  · exact trimFixed_setColR h (by decide)
  · exact h

theorem trimFixed_dedupStep {t : Table} {o : Options} (h : trimFixedT t) :
    trimFixedT (dedupStep o t) := by
  unfold dedupStep
  split
  · exact ⟨h.1, fun r hr => h.2 r (mem_dropDups.mp hr)⟩
  · exact h

theorem trimFixed_coerceStep {t : Table} (h : trimFixedT t) :
    trimFixedT (coerceStep t) := by
  refine ⟨h.1, fun r hr p hp => ?_⟩
  rcases List.mem_map.mp hr with ⟨r0, hr0, rfl⟩
  rcases keys_coerce_fold t.cols numericColumns r0 p hp with hn | ⟨q, hq, hqe⟩
  · revert hn
    have : ∀ c ∈ numericColumns, trimStr c = c := by decide
    exact fun hn => this p.1 hn
  · rw [hqe]; exact h.2 r0 hr0 q hq

theorem trimFixed_erStep {t : Table} (h : trimFixedT t) : trimFixedT (erStep t) := by
  unfold erStep
  split
  · exact trimFixed_setColR h (by decide)
  · exact h

theorem trimStep_id {t : Table} (h : trimFixedT t) : trimStep t = t := by
  rcases t with ⟨cols, rows⟩
  unfold trimStep
  congr 1
  · exact map_eq_self_of _ _ h.1
  · refine map_eq_self_of _ _ (fun r hr => ?_)
    refine map_eq_self_of _ _ (fun p hp => ?_)
    have := h.2 r hr p hp
    cases p
    simp only at this
    simp [this]

theorem dateStep_adds_cols {t : Table} (hd : "Date" ∈ t.cols) :
    "Day_of_Week" ∈ (dateStep t).cols ∧ "Month" ∈ (dateStep t).cols := by
  unfold dateStep
  rw [if_pos hd]
  constructor
  · exact mem_setColR_cols.mpr (Or.inl (mem_setColR_cols.mpr (Or.inr rfl)))
  · exact mem_setColR_cols.mpr (Or.inr rfl)

theorem timeStep_adds_hour_time {t : Table} (h : "Time" ∈ t.cols) :
    "Hour" ∈ (timeStep t).cols := by
  unfold timeStep
  rw [if_pos h]
  exact mem_setColR_cols.mpr (Or.inr rfl)

theorem timeStep_adds_hour_low {t : Table} (h1 : "Time" ∉ t.cols)
    (h2 : "hour" ∈ t.cols) : "Hour" ∈ (timeStep t).cols := by
  unfold timeStep
  rw [if_neg h1, if_pos h2]
  exact mem_setColR_cols.mpr (Or.inr rfl)

/-- With options `removeNulls=false, deduplicate=true, standardizeDates=false`,
the four pre-deduplication cleaning steps are the identity on any output of
`preprocess`: the output is already trimmed, date-parsed, hour-extracted and
platform-canonicalized. -/
theorem preprocess_clean_fixed (t : Table) :
    platformStep (timeStep (dateStep (trimStep
      (preprocess t ⟨false, true, false⟩)))) = preprocess t ⟨false, true, false⟩ := by
  set o : Options := ⟨false, true, false⟩ with ho
  set T0 := trimStep t with hT0
  set T1 := dateStep T0 with hT1
  set T2 := timeStep T1 with hT2
  set T3 := platformStep T2 with hT3
  have hU : preprocess t o = erStep (coerceStep (dedupStep o T3)) := by
    unfold preprocess
    rw [stdDatesStep_id rfl, nullStep_id rfl]
  set U := preprocess t o with hUdef
  rcases tail_rows_ex T3 (o := o) rfl with ⟨tf, htf_rows, htf_cell, htf_ku⟩
  have hUrow : ∀ r ∈ U.rows, ∃ r3 ∈ T3.rows, r = tf r3 := by
    intro r hr
    rw [hU] at hr
    rw [htf_rows] at hr
    rcases List.mem_map.mp hr with ⟨r3, hr3, rfl⟩
    exact ⟨r3, mem_dropDups.mp hr3, rfl⟩
  have hUrow2 : ∀ r3 ∈ T3.rows, tf r3 ∈ U.rows := by
    intro r3 hr3
    rw [hU, htf_rows]
    exact List.mem_map_of_mem tf (mem_dropDups.mpr hr3)
  -- column-membership transfer between U and the intermediate stages
  have hUT3 : ∀ b : String, b ≠ "Engagement_Rate" → (b ∈ U.cols ↔ b ∈ T3.cols) := by
    intro b hb
    rw [hU, mem_erStep_cols hb, coerceStep_cols, dedupStep_cols]
  have hT3T1 : ∀ b : String, b ≠ "Hour" → (b ∈ T3.cols ↔ b ∈ T1.cols) := by
    intro b hb
    rw [hT3, platformStep_cols, hT2, mem_timeStep_cols hb]
  have hT1T0 : ∀ b : String, b ≠ "Day_of_Week" → b ≠ "Month" →
      (b ∈ T1.cols ↔ b ∈ T0.cols) := by
    intro b hb1 hb2
    rw [hT1, mem_dateStep_cols hb1 hb2]
  -- trimming is the identity on U
  have htfix : trimFixedT U := by
    rw [hU]
    exact trimFixed_erStep (trimFixed_coerceStep (trimFixed_dedupStep
      (trimFixed_platformStep (trimFixed_timeStep (trimFixed_dateStep
        (trimFixed_trimStep t))))))
  have trim_id : trimStep U = U := trimStep_id htfix
  -- the date step is the identity on U
  have date_id : dateStep U = U := by
    by_cases hd : "Date" ∈ U.cols
    · have hdT1 : "Date" ∈ T0.cols :=
        (hT1T0 _ (by decide) (by decide)).mp
          ((hT3T1 _ (by decide)).mp ((hUT3 _ (by decide)).mp hd))
      have hinvT1 := dateStep_inv (s := T0) hdT1
      rcases timeStep_rows_ex T1 with ⟨qf, hq_rows, hq_cell, hq_ku⟩
      rcases platformStep_rows_ex T2 with ⟨pf, hp_rows, hp_cell, hp_ku⟩
      have hinvU : ∀ r ∈ U.rows,
          parseDateCell (cellAt r "Date") = cellAt r "Date" ∧
          cellAt r "Day_of_Week" = dowCell (cellAt r "Date") ∧
          cellAt r "Month" = monthCell (cellAt r "Date") ∧
          keyUniform "Date" r ∧ keyUniform "Day_of_Week" r ∧ keyUniform "Month" r := by
        intro r hr
        rcases hUrow r hr with ⟨r3, hr3, rfl⟩
        rw [hT3, hp_rows] at hr3
        rcases List.mem_map.mp hr3 with ⟨r2, hr2, rfl⟩
        rw [hT2, hq_rows] at hr2
        rcases List.mem_map.mp hr2 with ⟨r1, hr1, rfl⟩
        have h1 := hinvT1 r1 (hT1 ▸ hr1)
        have eD : cellAt (tf (pf (qf r1))) "Date" = cellAt r1 "Date" := by
          rw [htf_cell _ _ (by decide) (by decide), hp_cell _ _ (by decide),
            hq_cell _ _ (by decide)]
        have eW : cellAt (tf (pf (qf r1))) "Day_of_Week" = cellAt r1 "Day_of_Week" := by
          rw [htf_cell _ _ (by decide) (by decide), hp_cell _ _ (by decide),
            hq_cell _ _ (by decide)]
        have eM : cellAt (tf (pf (qf r1))) "Month" = cellAt r1 "Month" := by
          rw [htf_cell _ _ (by decide) (by decide), hp_cell _ _ (by decide),
            hq_cell _ _ (by decide)]
        rw [eD, eW, eM]
        exact ⟨h1.1, h1.2.1, h1.2.2.1,
          htf_ku _ _ (hp_ku _ _ (hq_ku _ _ h1.2.2.2.1)),
          htf_ku _ _ (hp_ku _ _ (hq_ku _ _ h1.2.2.2.2.1)),
          htf_ku _ _ (hp_ku _ _ (hq_ku _ _ h1.2.2.2.2.2))⟩
      have hDOWU : "Day_of_Week" ∈ U.cols :=
        (hUT3 _ (by decide)).mpr ((hT3T1 _ (by decide)).mpr
          (hT1 ▸ (dateStep_adds_cols hdT1).1))
      have hMonthU : "Month" ∈ U.cols :=
        (hUT3 _ (by decide)).mpr ((hT3T1 _ (by decide)).mpr
          (hT1 ▸ (dateStep_adds_cols hdT1).2))
      show dateStep U = U
      unfold dateStep
      rw [if_pos hd]
      rw [setColR_id hd (fun r hr => ⟨(hinvU r hr).2.2.2.1, (hinvU r hr).1⟩)]
      rw [setColR_id hDOWU (fun r hr =>
        ⟨(hinvU r hr).2.2.2.2.1, ((hinvU r hr).2.1).symm⟩)]
      rw [setColR_id hMonthU (fun r hr =>
        ⟨(hinvU r hr).2.2.2.2.2, ((hinvU r hr).2.2.1).symm⟩)]
    · show dateStep U = U
      unfold dateStep
      rw [if_neg hd]
  -- the time step is the identity on U
  have time_id : timeStep U = U := by
    rcases timeStep_rows_ex T1 with ⟨qf, hq_rows, hq_cell, hq_ku⟩
    rcases platformStep_rows_ex T2 with ⟨pf, hp_rows, hp_cell, hp_ku⟩
    by_cases htc : "Time" ∈ U.cols
    · have htT1 : "Time" ∈ T1.cols :=
        (hT3T1 _ (by decide)).mp ((hUT3 _ (by decide)).mp htc)
      have hinvT2 := timeStep_inv_time (s := T1) htT1
      have hinvU : ∀ r ∈ U.rows,
          cellAt r "Hour" =
            (if T1.rows.all (fun r0 => parseHourCell (cellAt r0 "Time") == Cell.null)
             then toNumCell (cellAt r "Time") else parseHourCell (cellAt r "Time")) ∧
          keyUniform "Hour" r ∧
          (∃ r1 ∈ T1.rows, cellAt r "Time" = cellAt r1 "Time") := by
        intro r hr
        rcases hUrow r hr with ⟨r3, hr3, rfl⟩
        rw [hT3, hp_rows] at hr3
        rcases List.mem_map.mp hr3 with ⟨r2, hr2, rfl⟩
        have h2 := hinvT2 r2 (hT2 ▸ hr2)
        have eH : cellAt (tf (pf r2)) "Hour" = cellAt r2 "Hour" := by
          rw [htf_cell _ _ (by decide) (by decide), hp_cell _ _ (by decide)]
        have eT : cellAt (tf (pf r2)) "Time" = cellAt r2 "Time" := by
          rw [htf_cell _ _ (by decide) (by decide), hp_cell _ _ (by decide)]
        rcases h2.2.2 with ⟨r1, hr1, he1⟩
        refine ⟨?_, htf_ku _ _ (hp_ku _ _ h2.2.1), ⟨r1, hr1, eT.trans he1⟩⟩
        rw [eH, eT, h2.1]
      have hPeq : (U.rows.all (fun r0 => parseHourCell (cellAt r0 "Time") == Cell.null))
          = (T1.rows.all (fun r0 => parseHourCell (cellAt r0 "Time") == Cell.null)) := by
        by_cases hp1 : T1.rows.all (fun r0 => parseHourCell (cellAt r0 "Time") == Cell.null)
        · rw [hp1]
          rw [List.all_eq_true] at hp1 ⊢
          intro r hr
          rcases (hinvU r hr).2.2 with ⟨r1, hr1, he⟩
          rw [he]
          exact hp1 r1 hr1
        · have hfa : (T1.rows.all fun r0 => parseHourCell (cellAt r0 "Time") == Cell.null)
              = false := by simpa using hp1
          rw [hfa]
          by_contra hne
          have hUall : (U.rows.all fun r0 =>
              parseHourCell (cellAt r0 "Time") == Cell.null) = true := by
            simpa using hne
          apply hp1
          rw [List.all_eq_true] at hUall ⊢
          intro r1 hr1
          have hmem2 : qf r1 ∈ T2.rows := by
            rw [hT2, hq_rows]; exact List.mem_map_of_mem qf hr1
          have hmem3 : pf (qf r1) ∈ T3.rows := by
            rw [hT3, hp_rows]; exact List.mem_map_of_mem pf hmem2
          have := hUall _ (hUrow2 _ hmem3)
          rwa [htf_cell _ _ (by decide) (by decide), hp_cell _ _ (by decide),
            hq_cell _ _ (by decide)] at this
      have hHourU : "Hour" ∈ U.cols := by
        refine (hUT3 _ (by decide)).mpr ?_
        rw [hT3, platformStep_cols, hT2]
        exact timeStep_adds_hour_time htT1
      show timeStep U = U
      unfold timeStep
      rw [if_pos htc, hPeq]
      exact setColR_id hHourU (fun r hr => ⟨(hinvU r hr).2.1, ((hinvU r hr).1).symm⟩)
    · by_cases hhc : "hour" ∈ U.cols
      · have htT1 : "Time" ∉ T1.cols := fun h =>
          htc ((hUT3 _ (by decide)).mpr ((hT3T1 _ (by decide)).mpr h))
        have hhT1 : "hour" ∈ T1.cols :=
          (hT3T1 _ (by decide)).mp ((hUT3 _ (by decide)).mp hhc)
        have hinvT2 := timeStep_inv_hour (s := T1) htT1 hhT1
        have hinvU : ∀ r ∈ U.rows,
            cellAt r "Hour" = toNumCell (cellAt r "hour") ∧ keyUniform "Hour" r := by
          intro r hr
          rcases hUrow r hr with ⟨r3, hr3, rfl⟩
          rw [hT3, hp_rows] at hr3
          rcases List.mem_map.mp hr3 with ⟨r2, hr2, rfl⟩
          have h2 := hinvT2 r2 (hT2 ▸ hr2)
          have eH : cellAt (tf (pf r2)) "Hour" = cellAt r2 "Hour" := by
            rw [htf_cell _ _ (by decide) (by decide), hp_cell _ _ (by decide)]
          have eh : cellAt (tf (pf r2)) "hour" = cellAt r2 "hour" := by
            rw [htf_cell _ _ (by decide) (by decide), hp_cell _ _ (by decide)]
          rw [eH, eh, h2.1]
          exact ⟨rfl, htf_ku _ _ (hp_ku _ _ h2.2)⟩
        have hHourU : "Hour" ∈ U.cols := by
          refine (hUT3 _ (by decide)).mpr ?_
          rw [hT3, platformStep_cols, hT2]
          exact timeStep_adds_hour_low htT1 hhT1
        show timeStep U = U
        unfold timeStep
        rw [if_neg htc, if_pos hhc]
        exact setColR_id hHourU (fun r hr => ⟨(hinvU r hr).2, ((hinvU r hr).1).symm⟩)
      · show timeStep U = U
        unfold timeStep
        rw [if_neg htc, if_neg hhc]
  -- the platform step is the identity on U
  have plat_id : platformStep U = U := by
    by_cases hpm : "Platform" ∈ U.cols
    · have hpT2 : "Platform" ∈ T2.cols := by
        have h2 := (hUT3 _ (by decide)).mp hpm
        rwa [hT3, platformStep_cols] at h2
      have hinvT3 := platformStep_inv (s := T2) hpT2
      have hinvU : ∀ r ∈ U.rows,
          replacePlatform (cellAt r "Platform") = cellAt r "Platform" ∧
          keyUniform "Platform" r := by
        intro r hr
        rcases hUrow r hr with ⟨r3, hr3, rfl⟩
        have h3 := hinvT3 r3 (hT3 ▸ hr3)
        have eP : cellAt (tf r3) "Platform" = cellAt r3 "Platform" :=
          htf_cell _ _ (by decide) (by decide)
        rw [eP]
        exact ⟨h3.1, htf_ku _ _ h3.2⟩
      show platformStep U = U
      unfold platformStep
      rw [if_pos hpm]
      exact setColR_id hpm (fun r hr => ⟨(hinvU r hr).2, (hinvU r hr).1⟩)
    · show platformStep U = U
      unfold platformStep
      rw [if_neg hpm]
  rw [trim_id, date_id, time_id, plat_id]

/-! ### Row-count lemmas for the tail steps -/

theorem coerceStep_len (s : Table) : (coerceStep s).rows.length = s.rows.length :=
  List.length_map _ _

theorem erStep_len (s : Table) : (erStep s).rows.length = s.rows.length := by
  unfold erStep
  split
  · rw [setColR_rows, List.length_map]
  · rfl

/-! ### Step 8 value lemmas -/

theorem cellPV_of_num {c : Cell} (h : ∃ q, c = Cell.num q) :
    cellPV c = .val (qCell c) := by
  rcases h with ⟨q, rfl⟩; rfl

theorem interStep_val {cols : List String} {r : Row} {c : String} {a : ℚ}
    (h : c ∈ cols → ∃ q, cellAt r c = Cell.num q) :
    interStep cols r c (.val a)
      = .val (a + if c ∈ cols then qCell (cellAt r c) else 0) := by
  unfold interStep
  by_cases hc : c ∈ cols
  · rcases h hc with ⟨q, hq⟩
    rw [if_pos hc, if_pos hc, hq]
    rfl
  · rw [if_neg hc, if_neg hc, add_zero]

theorem interPV_val {cols : List String} {r : Row}
    (h : ∀ c ∈ (["Likes", "Comments", "Shares", "Saves"] : List String),
      c ∈ cols → ∃ q, cellAt r c = Cell.num q) :
    interPV cols r = .val (interQ cols r) := by
  unfold interPV interQ
  have hbase : (if "Likes" ∈ cols then cellPV (cellAt r "Likes") else .val 0)
      = .val (if "Likes" ∈ cols then qCell (cellAt r "Likes") else 0) := by
    by_cases hc : "Likes" ∈ cols
    · rw [if_pos hc, if_pos hc, cellPV_of_num (h "Likes" (by decide) hc)]
    · rw [if_neg hc, if_neg hc]
  rw [hbase, interStep_val (h "Comments" (by decide)),
    interStep_val (h "Shares" (by decide)), interStep_val (h "Saves" (by decide))]

theorem er_formula_pos {i reach : ℚ} (h : 0 < reach) :
    cleanse (pvScale100 (pvDivPV (.val i) (.val reach))) = 100 * i / reach := by
  have hne : reach ≠ 0 := ne_of_gt h
  simp only [pvDivPV, pvDiv, if_neg hne, pvScale100, cleanse]
  ring

theorem er_formula_zero (i : ℚ) :
    cleanse (pvScale100 (pvDivPV (.val i) (.val 0))) = 0 := by
  by_cases hi : i = 0
  · simp [pvDivPV, pvDiv, hi, pvScale100, cleanse]
  · by_cases hp : 0 < i <;> simp [pvDivPV, pvDiv, hi, hp, pvScale100, cleanse]

/-! ### Histogram dictionary lemmas -/

theorem bumpKey_lookup_self (d : List (String × Nat)) (k : String) :
    lookupCnt (bumpKey k d) k = some ((lookupCnt d k).getD 0 + 1) := by
  induction d with
  | nil => simp [bumpKey, lookupCnt]
  | cons p rest ih =>
    by_cases hp : p.1 = k
    · simp [bumpKey, lookupCnt, hp]
    · simp [bumpKey, lookupCnt, hp, ih]

theorem bumpKey_lookup_ne (d : List (String × Nat)) {k b : String} (h : b ≠ k) :
    lookupCnt (bumpKey k d) b = lookupCnt d b := by
  induction d with
  | nil => simp [bumpKey, lookupCnt, Ne.symm h]
  | cons p rest ih =>
    by_cases hp : p.1 = k
    · have h2 : p.1 ≠ b := by rw [hp]; exact Ne.symm h
      simp [bumpKey, lookupCnt, hp, h2, Ne.symm h]
    · by_cases hb : p.1 = b
      · simp [bumpKey, lookupCnt, hp, hb, h]
      · simp [bumpKey, lookupCnt, hp, hb, ih]

theorem bumpKey_keys (d : List (String × Nat)) (k : String) :
    keysOf (bumpKey k d) = if k ∈ keysOf d then keysOf d else keysOf d ++ [k] := by
  induction d with
  | nil => simp [bumpKey, keysOf]
  | cons p rest ih =>
    by_cases hp : p.1 = k
    · simp [bumpKey, keysOf, hp] at *
    · simp only [bumpKey, if_neg hp, keysOf, List.map_cons] at *
      rw [ih]
      by_cases hk : k ∈ List.map Prod.fst rest
      · rw [if_pos hk, if_pos (by simp [hk])]
      · rw [if_neg hk, if_neg (by simp [hk, Ne.symm hp])]
        rfl

theorem bumpKey_keys_nodup {d : List (String × Nat)} (h : (keysOf d).Nodup)
    (k : String) : (keysOf (bumpKey k d)).Nodup := by
  rw [bumpKey_keys]
  by_cases hk : k ∈ keysOf d
  · rwa [if_pos hk]
  · rw [if_neg hk]
    simpa [List.nodup_append] using ⟨h, hk⟩

theorem mem_keysOf_iff_lookup {d : List (String × Nat)} {k : String} :
    k ∈ keysOf d ↔ (lookupCnt d k).isSome := by
  induction d with
  | nil => simp [keysOf, lookupCnt]
  | cons p rest ih =>
    show k ∈ p.1 :: keysOf rest ↔ _
    by_cases hp : p.1 = k
    · simp [lookupCnt, hp]
    · rw [List.mem_cons]
      simp only [lookupCnt, if_neg hp]
      constructor
      · rintro (he | hm)
        · exact absurd he.symm hp
        · exact ih.mp hm
      · intro hm
        exact Or.inr (ih.mpr hm)

theorem mem_entry_iff_lookup {d : List (String × Nat)} (h : (keysOf d).Nodup)
    {k : String} {n : Nat} : (k, n) ∈ d ↔ lookupCnt d k = some n := by
  induction d with
  | nil => simp [lookupCnt]
  | cons p rest ih =>
    have hnd : (keysOf rest).Nodup := by
      simpa [keysOf] using (List.nodup_cons.mp (by simpa [keysOf] using h)).2
    have hnm : p.1 ∉ keysOf rest :=
      (List.nodup_cons.mp (by simpa [keysOf] using h)).1
    by_cases hp : p.1 = k
    · subst hp
      rw [List.mem_cons]
      show _ ↔ (if p.1 = p.1 then some p.2 else lookupCnt rest p.1) = some n
      rw [if_pos rfl]
      constructor
      · rintro (he | hm)
        · rw [← he]
        · exact absurd (mem_keysOf_iff_lookup.mpr (by
            rw [(ih hnd).mp hm]; rfl)) hnm
      · intro he
        left
        cases p
        simp at he ⊢
        exact he.symm
    · rw [List.mem_cons]
      show _ ↔ (if p.1 = k then some p.2 else lookupCnt rest k) = some n
      rw [if_neg hp, ← ih hnd]
      constructor
      · rintro (he | hm)
        · exact absurd (congrArg Prod.fst he).symm hp
        · exact hm
      · exact Or.inr

theorem distCountsAux_lookup (vals : List ℚ) :
    ∀ (d : List (String × Nat)) (k : String),
    (lookupCnt (vals.foldl (fun d2 v => bumpKey (bucketLabel (bucketOf v)) d2) d) k).getD 0
      = (lookupCnt d k).getD 0 + vals.countP (fun v => bucketLabel (bucketOf v) == k) := by
  induction vals with
  | nil => intro d k; simp [List.countP_nil]
  | cons v vals ih =>
    intro d k
    rw [List.foldl_cons, ih, List.countP_cons]
    by_cases hk : bucketLabel (bucketOf v) = k
    · rw [← hk, bumpKey_lookup_self]
      simp [hk]
      omega
    · rw [bumpKey_lookup_ne _ (Ne.symm hk)]
      simp [hk]

theorem distCountsAux_keys (vals : List ℚ) :
    ∀ (d : List (String × Nat)) (k : String),
    (k ∈ keysOf (vals.foldl (fun d2 v => bumpKey (bucketLabel (bucketOf v)) d2) d)
      ↔ k ∈ keysOf d ∨ ∃ v ∈ vals, bucketLabel (bucketOf v) = k) := by
  induction vals with
  | nil => intro d k; simp
  | cons v vals ih =>
    intro d k
    rw [List.foldl_cons, ih, bumpKey_keys]
    by_cases hv : bucketLabel (bucketOf v) ∈ keysOf d
    · rw [if_pos hv]
      constructor
      · rintro (h | h)
        · exact Or.inl h
        · exact Or.inr (by rcases h with ⟨w, hw, he⟩; exact ⟨w, List.mem_cons_of_mem v hw, he⟩)
      · rintro (h | ⟨w, hw, he⟩)
        · exact Or.inl h
        · rcases List.mem_cons.mp hw with rfl | hw2
          · exact Or.inl (he ▸ hv)
          · exact Or.inr ⟨w, hw2, he⟩
    · rw [if_neg hv]
      constructor
      · rintro (h | h)
        · rcases List.mem_append.mp h with h2 | h2
          · exact Or.inl h2
          · refine Or.inr ⟨v, List.mem_cons_self v vals, ?_⟩
            rw [List.mem_singleton.mp h2]
        · exact Or.inr (by rcases h with ⟨w, hw, he⟩; exact ⟨w, List.mem_cons_of_mem v hw, he⟩)
      · rintro (h | ⟨w, hw, he⟩)
        · exact Or.inl (List.mem_append.mpr (Or.inl h))
        · rcases List.mem_cons.mp hw with rfl | hw2
          · exact Or.inl (List.mem_append.mpr (Or.inr (by simp [he])))
          · exact Or.inr ⟨w, hw2, he⟩

theorem distCountsAux_nodup (vals : List ℚ) :
    ∀ (d : List (String × Nat)), (keysOf d).Nodup →
    (keysOf (vals.foldl (fun d2 v => bumpKey (bucketLabel (bucketOf v)) d2) d)).Nodup := by
  induction vals with
  | nil => intro d h; exact h
  | cons v vals ih =>
    intro d h
    rw [List.foldl_cons]
    exact ih _ (bumpKey_keys_nodup h _)

theorem distCounts_nodup (vals : List ℚ) : (keysOf (distCounts vals)).Nodup :=
  distCountsAux_nodup vals [] (by simp [keysOf])

theorem distCounts_entry {vals : List ℚ} {p : String × Nat}
    (h : p ∈ distCounts vals) :
    p.2 = vals.countP (fun v => bucketLabel (bucketOf v) == p.1) ∧
    ∃ v ∈ vals, bucketLabel (bucketOf v) = p.1 := by
  have h1 : lookupCnt (distCounts vals) p.1 = some p.2 := by
    have := (mem_entry_iff_lookup (distCounts_nodup vals)
      (k := p.1) (n := p.2)).mp (by cases p; exact h)
    exact this
  constructor
  · have h2 := distCountsAux_lookup vals [] p.1
    unfold distCounts at h1
    rw [h1] at h2
    simpa [lookupCnt] using h2
  · have h3 : p.1 ∈ keysOf (distCounts vals) := mem_keysOf_iff_lookup.mpr (by rw [h1]; rfl)
    have h4 := (distCountsAux_keys vals [] p.1).mp h3
    simpa [keysOf] using h4

theorem distCounts_complete {vals : List ℚ} {v : ℚ} (h : v ∈ vals) :
    ∃ p ∈ distCounts vals, p.1 = bucketLabel (bucketOf v) := by
  have h1 : bucketLabel (bucketOf v) ∈ keysOf (distCounts vals) :=
    (distCountsAux_keys vals [] _).mpr (Or.inr ⟨v, h, rfl⟩)
  rcases List.mem_map.mp h1 with ⟨p, hp, he⟩
  exact ⟨p, hp, he⟩

/-! ### Feature-schema lemmas -/

theorem filterMap_if_sublist {α β : Type} (l : List α) (P : α → Prop)
    [DecidablePred P] (g : α → β) :
    List.Sublist (l.filterMap (fun a => if P a then some (g a) else none)) (l.map g) := by
  induction l with
  | nil => exact List.Sublist.refl _
  | cons a l ih =>
    rw [List.filterMap_cons, List.map_cons]
    by_cases hp : P a
    · rw [if_pos hp]
      exact List.Sublist.cons₂ _ ih
    · rw [if_neg hp]
      exact List.Sublist.cons _ ih

theorem isPrefixOf_append (l m : List Char) : l.isPrefixOf (l ++ m) = true := by
  induction l with
  | nil => simp [List.isPrefixOf]
  | cons c l ih => simp [List.isPrefixOf, ih]

/-! ### The claims -/

/-- C3: the classification trainer's label derivation maps an engagement
rate `v` to `Low` iff `v < 2`, to `Average` iff `2 ≤ v ≤ 8`, and to `High`
iff `v > 8`; in particular `1.9 → Low`, `2.0 → Average`, `8.0 → Average`
and `8.1 → High`. -/
theorem C3_classification_thresholds :
    (∀ v : ℚ, (categorize v = .Low ↔ v < 2) ∧
      (categorize v = .Average ↔ 2 ≤ v ∧ v ≤ 8) ∧
      (categorize v = .High ↔ 8 < v)) ∧
    categorize (19/10) = .Low ∧ categorize 2 = .Average ∧
    categorize 8 = .Average ∧ categorize (81/10) = .High := by
  have key : ∀ v : ℚ, (categorize v = .Low ↔ v < 2) ∧
      (categorize v = .Average ↔ 2 ≤ v ∧ v ≤ 8) ∧
      (categorize v = .High ↔ 8 < v) := by
    intro v
    unfold categorize
    by_cases h1 : v < 2
    · rw [if_pos h1]
      refine ⟨by simp [h1], ?_, ?_⟩
      · constructor
        · intro h; exact absurd h (by decide)
        · rintro ⟨h2, _⟩; linarith
      · constructor
        · intro h; exact absurd h (by decide)
        · intro h; linarith
    · rw [if_neg h1]
      have h1' : 2 ≤ v := le_of_not_lt h1
      by_cases h2 : v ≤ 8
      · rw [if_pos h2]
        refine ⟨?_, by simp [h1', h2], ?_⟩
        · constructor
          · intro h; exact absurd h (by decide)
          · intro h; linarith
        · constructor
          · intro h; exact absurd h (by decide)
          · intro h; linarith
      · rw [if_neg h2]
        have h8 : 8 < v := lt_of_not_le h2
        refine ⟨?_, ?_, by simp [h8]⟩
        · constructor
          · intro h; exact absurd h (by decide)
          · intro h; linarith
        · constructor
          · intro h; exact absurd h (by decide)
          · rintro ⟨_, hb⟩; linarith
  refine ⟨key, ?_, ?_, ?_, ?_⟩
  · exact (key _).1.mpr (by norm_num)
  · exact (key _).2.1.mpr (by norm_num)
  · exact (key _).2.1.mpr (by norm_num)
  · exact (key _).2.2.mpr (by norm_num)

/-- C5 counterexample: the `api` dashboard's reach-vs-engagement scatter
samples `min(100, n)` rows, so at `n = 150` it contains 100 points, not
`min(n, 200) = 150` as claimed. -/
theorem C5_counterexample :
    scatterSampleLen 150 = 100 ∧ min 150 200 = 150 ∧ (100 : Nat) ≠ 150 := by decide

/-- C5 amended: the `api` dashboard scatter contains `min(n, 100)` points
(all rows when `n ≤ 100`, exactly 100 sampled rows otherwise); only the
`social_pulse` copy caps at 200 with `min(n, 200)` points. -/
theorem C5_amended :
    ∀ n : Nat,
      (scatterSampleLen n = min n 100 ∧ (n ≤ 100 → scatterSampleLen n = n) ∧
        (100 < n → scatterSampleLen n = 100)) ∧
      (scatterSampleLen2 n = min n 200 ∧ (n ≤ 200 → scatterSampleLen2 n = n) ∧
        (200 < n → scatterSampleLen2 n = 200)) := by
  intro n
  unfold scatterSampleLen scatterSampleLen2
  by_cases h : n > 200
  · rw [if_pos h]
    refine ⟨⟨?_, ?_, ?_⟩, ?_, ?_, ?_⟩ <;> intros <;> omega
  · rw [if_neg h]
    refine ⟨⟨?_, ?_, ?_⟩, ?_, ?_, ?_⟩ <;> intros <;> omega

theorem C5_amended_witness :
    scatterSampleLen 150 = 100 ∧ scatterSampleLen2 150 = 150 :=
  ⟨(C5_amended 150).1.2.2 (by decide), (C5_amended 150).2.2.1 (by decide)⟩

/-- C6 counterexample: tokenizing `"#fun, #sun #fun"` yields the tokens
`#fun, #sun, #fun` — the leading `#` is kept — so the occurrence count of
the bare token `fun` is 0, not 2. -/
theorem C6_counterexample :
    tokenizeHashtags "#fun, #sun #fun" = ["#fun", "#sun", "#fun"] ∧
    countToken (tokenizeHashtags "#fun, #sun #fun") "fun" = 0 ∧
    countToken (tokenizeHashtags "#fun, #sun #fun") "sun" = 0 := by decide

/-- C6 amended: tokenization splits on whitespace/comma runs, trims, drops
empty tokens, and keeps the `#`: `"#fun, #sun #fun"` yields
`#fun, #sun, #fun` with occurrence counts `#fun = 2`, `#sun = 1`, compared
case-sensitively as stored. -/
theorem C6_amended :
    tokenizeHashtags "#fun, #sun #fun" = ["#fun", "#sun", "#fun"] ∧
    hashtagTokens ⟨["Hashtags", "Engagement_Rate"],
      [[("Hashtags", Cell.str "#fun, #sun #fun"), ("Engagement_Rate", Cell.num 5)]]⟩
      "Hashtags" = ["#fun", "#sun", "#fun"] ∧
    countToken (tokenizeHashtags "#fun, #sun #fun") "#fun" = 2 ∧
    countToken (tokenizeHashtags "#fun, #sun #fun") "#sun" = 1 ∧
    countToken (tokenizeHashtags "#fun, #sun #fun") "#FUN" = 0 := by decide

/-- C8: a failed model load or inference surfaces as a `None` prediction
field; the report is still produced in full (the function is total) and
every other embedded field equals its independent computation, unaffected
by either failure. -/
theorem C8_prediction_errors_swallowed (t : Table) (platform content_type : String)
    (reg : PredictOutcome ℚ) (cls : PredictOutcome String) (m1 m2 : String) :
    (getInsights t platform content_type (.failed m1) cls).predicted_engagement = none ∧
    (getInsights t platform content_type reg (.failed m2)).predicted_class = none ∧
    (getInsights t platform content_type (.failed m1) (.failed m2)).predicted_reach
      = predictedReach (filteredTable t platform content_type) ∧
    (getInsights t platform content_type (.failed m1) (.failed m2)).top_posts
      = topPosts (filteredTable t platform content_type) ∧
    (getInsights t platform content_type (.failed m1) (.failed m2)).engagement_distribution
      = (getInsights t platform content_type reg cls).engagement_distribution :=
  ⟨rfl, rfl, rfl, rfl, rfl⟩

/-- C4 counterexample: with engagement values 3 and 11 the histogram is
`[("10-12%", 1), ("2-4%", 1)]` — the bucket starting at 10 is listed before
the bucket starting at 2, so the list is not sorted by ascending numeric
bucket start. -/
theorem C4_counterexample :
    engagementDistribution [3, 11] = [(bucketLabel 10, 1), (bucketLabel 2, 1)] ∧
    bucketLabel 2 = "2-4%" ∧ bucketLabel 10 = "10-12%" ∧ ¬ ((10 : ℤ) ≤ 2) := by
  have h3 : bucketOf 3 = 2 := by norm_num [bucketOf]
  have h11 : bucketOf 11 = 10 := by norm_num [bucketOf]
  refine ⟨?_, by decide, by decide, by decide⟩
  unfold engagementDistribution distCounts
  rw [List.foldl_cons, List.foldl_cons, List.foldl_nil, h3, h11]
  decide

/-- C4 amended: the histogram consists of width-2 buckets labelled
`"<start>-<start+2>%"`, each entry counting the values falling in its
bucket, and the returned list is sorted lexicographically by the label
string (Python string order), which coincides with ascending numeric
bucket start only when the starts have equal digit lengths. -/
theorem C4_amended (vals : List ℚ) :
    List.Sorted pairLe (engagementDistribution vals) ∧
    (∀ p ∈ engagementDistribution vals,
      p.2 = vals.countP (fun v => bucketLabel (bucketOf v) == p.1) ∧
      ∃ v ∈ vals, p.1 = bucketLabel (bucketOf v)) ∧
    (∀ v ∈ vals, ∃ p ∈ engagementDistribution vals, p.1 = bucketLabel (bucketOf v)) := by
  refine ⟨List.sorted_insertionSort pairLe _, ?_, ?_⟩
  · intro p hp
    have hp2 : p ∈ distCounts vals :=
      (List.perm_insertionSort pairLe (distCounts vals)).mem_iff.mp hp
    rcases distCounts_entry hp2 with ⟨hc, v, hv, he⟩
    exact ⟨hc, v, hv, he.symm⟩
  · intro v hv
    rcases distCounts_complete hv with ⟨p, hp, he⟩
    exact ⟨p, (List.perm_insertionSort pairLe (distCounts vals)).mem_iff.mpr hp, he⟩

theorem C4_amended_witness :
    (11 : ℚ) ∈ ([3, 11] : List ℚ) ∧
    ∃ p ∈ engagementDistribution [3, 11], p.1 = bucketLabel (bucketOf 11) :=
  ⟨by decide, (C4_amended [3, 11]).2.2 11 (by decide)⟩

/-- C2 counterexample: the code strips the indicator prefix with Python
`str.replace`, which removes every occurrence: with filter `platform="X"`,
the column `Platform_Platform_X` — whose suffix after the prefix is
`Platform_X`, not `X` — is nevertheless set to `1.0`. -/
theorem C2_counterexample :
    inputVal ⟨[], []⟩ "X" "" "Platform_Platform_X" = 1 ∧
    dropPfx "Platform_Platform_X" "Platform_" = "Platform_X" ∧
    ("Platform_X" : String) ≠ "X" := by
  refine ⟨?_, by decide, by decide⟩
  unfold inputVal
  rw [if_pos (by decide : strStartsWith "Platform_Platform_X" "Platform_" = true),
    if_pos (⟨by decide, by decide⟩ :
      ("X" : String) ≠ "" ∧ replaceAll "Platform_Platform_X" "Platform_" = "X")]

/-- C2 amended: the vector is assembled in the bundle's exact column order;
a `Platform_*`/`Content_Type_*` indicator is `1.0` iff the filter value is
nonempty and equals the column with all occurrences of the prefix removed
(`str.replace`), and `0.0` otherwise; every other column receives the
median of its coerced values over the already-filtered table, or `0.0`
when the column is absent or its median is `NaN`. -/
theorem C2_amended (fc : List String) (tbl : Table) (platform content_type : String) :
    buildInputRow fc tbl platform content_type
      = fc.map (fun col => (col, inputVal tbl platform content_type col)) ∧
    (∀ col, strStartsWith col "Platform_" = true →
      ((inputVal tbl platform content_type col = 1 ↔
        platform ≠ "" ∧ replaceAll col "Platform_" = platform) ∧
       (¬ (platform ≠ "" ∧ replaceAll col "Platform_" = platform) →
        inputVal tbl platform content_type col = 0))) ∧
    (∀ col, strStartsWith col "Platform_" = false →
      strStartsWith col "Content_Type_" = true →
      ((inputVal tbl platform content_type col = 1 ↔
        content_type ≠ "" ∧ replaceAll col "Content_Type_" = content_type) ∧
       (¬ (content_type ≠ "" ∧ replaceAll col "Content_Type_" = content_type) →
        inputVal tbl platform content_type col = 0))) ∧
    (∀ col, strStartsWith col "Platform_" = false →
      strStartsWith col "Content_Type_" = false →
      (col ∈ tbl.cols →
        (∀ m, seriesMedian (colNumsCoerced tbl col) = some m →
          inputVal tbl platform content_type col = m) ∧
        (seriesMedian (colNumsCoerced tbl col) = none →
          inputVal tbl platform content_type col = 0)) ∧
      (col ∉ tbl.cols → inputVal tbl platform content_type col = 0)) := by
  refine ⟨rfl, ?_, ?_, ?_⟩
  · intro col h
    unfold inputVal
    rw [if_pos h]
    by_cases hcond : platform ≠ "" ∧ replaceAll col "Platform_" = platform
    · rw [if_pos hcond]
      exact ⟨⟨fun _ => hcond, fun _ => rfl⟩, fun hn => absurd hcond hn⟩
    · rw [if_neg hcond]
      exact ⟨⟨fun h0 => absurd h0 (by norm_num), fun hc => absurd hc hcond⟩, fun _ => rfl⟩
  · intro col h1 h2
    unfold inputVal
    rw [if_neg (by simp [h1]), if_pos h2]
    by_cases hcond : content_type ≠ "" ∧ replaceAll col "Content_Type_" = content_type
    · rw [if_pos hcond]
      exact ⟨⟨fun _ => hcond, fun _ => rfl⟩, fun hn => absurd hcond hn⟩
    · rw [if_neg hcond]
      exact ⟨⟨fun h0 => absurd h0 (by norm_num), fun hc => absurd hc hcond⟩, fun _ => rfl⟩
  · intro col h1 h2
    unfold inputVal
    rw [if_neg (by simp [h1]), if_neg (by simp [h2])]
    constructor
    · intro hm
      rw [if_pos hm]
      constructor
      · intro m hm2; rw [hm2]
      · intro hn; rw [hn]
    · intro hn
      rw [if_neg hn]

theorem C2_amended_witness :
    strStartsWith "Platform_X" "Platform_" = true ∧
    inputVal ⟨[], []⟩ "X" "" "Platform_X" = 1 :=
  ⟨by decide, ((C2_amended ["Platform_X"] ⟨[], []⟩ "X" "").2.1 "Platform_X"
    (by decide)).1.mpr ⟨by decide, by decide⟩⟩

/-- C9 counterexample: with columns `Hour` (canonical) and `caption_length`
(lowercase alternate), the numeric passthrough part is
`[Hour, Caption_Length]` — the lowercase-resolved name comes after the
canonical one — which violates the claimed fixed relative order
`Caption_Length, Hashtag_count, Hour, Day_of_Week`. -/
theorem C9_counterexample :
    prepareFeatureCols ⟨["Hour", "caption_length"], []⟩ = ["Hour", "Caption_Length"] ∧
    ¬ List.Sublist ["Hour", "Caption_Length"]
        ["Caption_Length", "Hashtag_count", "Hour", "Day_of_Week"] := by decide

/-- C9 amended: the returned feature-column list is exactly the matrix's
column list; it is laid out as numeric passthroughs, then every
`Platform_*` indicator, then every `Content_Type_*` indicator; the numeric
part is the canonical names present (in the fixed relative order) followed
by the lowercase-resolved names (in `alt_map` order), each of the two
phases separately respecting the fixed relative order. -/
theorem C9_amended (t : Table) :
    (prepareFeatures t).2 = (prepareFeatures t).1.cols ∧
    (∀ r, (featureRow t r).map Prod.fst = prepareFeatureCols t) ∧
    prepareNumericCols t = numCanonCols.filter (· ∈ t.cols)
      ++ altPairs.filterMap (fun p =>
          if p.2 ∉ t.cols ∧ p.1 ∈ t.cols then some p.2 else none) ∧
    List.Sublist (numCanonCols.filter (· ∈ t.cols)) numCanonCols ∧
    List.Sublist (altPairs.filterMap (fun p =>
        if p.2 ∉ t.cols ∧ p.1 ∈ t.cols then some p.2 else none)) numCanonCols ∧
    (∀ c ∈ prepareNumericCols t, c ∈ numCanonCols) ∧
    (∀ src c, c ∈ dummyCols t "Platform" src → strStartsWith c "Platform_" = true) ∧
    (∀ src c, c ∈ dummyCols t "Content_Type" src →
      strStartsWith c "Content_Type_" = true) := by
  have hfn : ∀ p : String × String,
      ((if p.2 ∉ t.cols ∧ p.1 ∈ t.cols then some (p.2, p.1) else none).map Prod.fst)
        = if p.2 ∉ t.cols ∧ p.1 ∈ t.cols then some p.2 else none := by
    intro p; split <;> rfl
  have hnum : prepareNumericCols t = numCanonCols.filter (· ∈ t.cols)
      ++ altPairs.filterMap (fun p =>
          if p.2 ∉ t.cols ∧ p.1 ∈ t.cols then some p.2 else none) := by
    unfold prepareNumericCols prepareNumericSpec
    rw [List.map_append, List.map_map, List.map_filterMap]
    rw [show (Prod.fst ∘ fun c : String => (c, c)) = id from rfl, List.map_id]
    simp only [hfn]
  refine ⟨rfl, ?_, hnum, List.filter_sublist _, ?_, ?_, ?_, ?_⟩
  · intro r
    unfold featureRow prepareFeatureCols
    rw [List.map_append, List.map_append, List.map_map]
    have hA : (prepareNumericSpec t).map
        (Prod.fst ∘ fun p => (p.1, coerceCell (cellAt r p.2))) = prepareNumericCols t := rfl
    have hB : (match resolveCol t "Platform" "platform" with
        | some src => dummyPairs t "Platform" src r
        | none => ([] : Row)).map Prod.fst
        = (match resolveCol t "Platform" "platform" with
          | some src => dummyCols t "Platform" src
          | none => []) := by
      cases resolveCol t "Platform" "platform" <;>
        simp [dummyPairs, dummyCols, List.map_map, Function.comp]
    have hC : (match resolveCol t "Content_Type" "content_type" with
        | some src => dummyPairs t "Content_Type" src r
        | none => ([] : Row)).map Prod.fst
        = (match resolveCol t "Content_Type" "content_type" with
          | some src => dummyCols t "Content_Type" src
          | none => []) := by
      cases resolveCol t "Content_Type" "content_type" <;>
        simp [dummyPairs, dummyCols, List.map_map, Function.comp]
    rw [hA, hB, hC]
  · have h := filterMap_if_sublist altPairs
      (fun p => p.2 ∉ t.cols ∧ p.1 ∈ t.cols) Prod.snd
    rwa [show altPairs.map Prod.snd = numCanonCols by decide] at h
  · intro c hc
    rw [hnum] at hc
    rcases List.mem_append.mp hc with h2 | h2
    · exact List.mem_of_mem_filter h2
    · rcases List.mem_filterMap.mp h2 with ⟨p, hp, he⟩
      by_cases hcond : p.2 ∉ t.cols ∧ p.1 ∈ t.cols
      · rw [if_pos hcond] at he
        have : p.2 ∈ altPairs.map Prod.snd := List.mem_map_of_mem Prod.snd hp
        rw [show altPairs.map Prod.snd = numCanonCols by decide] at this
        rwa [← Option.some_inj.mp he]
      · rw [if_neg hcond] at he
        exact absurd he (by simp)
  · intro src c hc
    rcases List.mem_map.mp hc with ⟨v, _, rfl⟩
    show ("Platform_" : String).data.isPrefixOf ("Platform" ++ "_" ++ v).data = true
    have he : ("Platform" ++ "_" ++ v : String).data
        = ("Platform_" : String).data ++ v.data := rfl
    rw [he]
    exact isPrefixOf_append _ _
  · intro src c hc
    rcases List.mem_map.mp hc with ⟨v, _, rfl⟩
    show ("Content_Type_" : String).data.isPrefixOf ("Content_Type" ++ "_" ++ v).data = true
    have he : ("Content_Type" ++ "_" ++ v : String).data
        = ("Content_Type_" : String).data ++ v.data := rfl
    rw [he]
    exact isPrefixOf_append _ _

theorem C9_amended_witness :
    prepareFeatureCols ⟨["Hour", "caption_length"], []⟩ = ["Hour", "Caption_Length"] ∧
    ("Hour" : String) ∈ numCanonCols :=
  ⟨by decide, (C9_amended ⟨["Hour", "caption_length"], []⟩).2.2.2.2.2.1 "Hour" (by decide)⟩

/-- C10: a top post carries a `reach` field iff the table has a column named
exactly `Reach`; the historical-reach insight, by contrast, resolves
`Reach` first and lowercase `reach` second, so with data only under
`reach`, top posts omit the field while the historical mean still uses it. -/
theorem C10_top_posts_reach (u : Table) :
    (∀ post ∈ topPosts u, (post.reach ≠ none ↔ "Reach" ∈ u.cols)) ∧
    ("Reach" ∉ u.cols → "reach" ∈ u.cols →
      predictedReach u = (match colNumsCoerced u "reach" with
        | [] => 0
        | vs => truncQ (listMean vs))) := by
  constructor
  · intro post hpost
    unfold topPosts at hpost
    cases hre : resolveEng u with
    | none => rw [hre] at hpost; simp at hpost
    | some ec =>
      rw [hre] at hpost
      rcases List.mem_filterMap.mp hpost with ⟨i, _, he⟩
      rcases Option.map_eq_some'.mp he with ⟨r, _, hmk⟩
      rw [← hmk]
      unfold mkPost
      by_cases hR : "Reach" ∈ u.cols
      · simp only [if_pos hR]
        simp [hR]
      · simp only [if_neg hR]
        simp [hR]
  · intro h1 h2
    unfold predictedReach
    rw [if_neg h1, if_pos h2]

theorem C10_witness :
    ((topPosts tLowReach).map Post.reach = [none]) ∧
    ("Reach" ∉ tLowReach.cols ∧ "reach" ∈ tLowReach.cols) ∧
    predictedReach tLowReach = (match colNumsCoerced tLowReach "reach" with
      | [] => 0
      | vs => truncQ (listMean vs)) :=
  ⟨by decide, ⟨by decide, by decide⟩,
    (C10_top_posts_reach tLowReach).2 (by decide) (by decide)⟩

/-- C1: preprocessing a table whose trimmed columns contain `Reach` but not
`Engagement_Rate` gives every output row a finite numeric engagement rate:
`100 * (Likes + Comments + Shares + Saves) / Reach` whenever `Reach > 0`
(absent counters contributing 0), and `0` whenever `Reach = 0` — never
`NaN` or `Infinity`. -/
theorem C1_engagement_rate_derivation (t : Table) (o : Options)
    (hReach : "Reach" ∈ (trimStep t).cols)
    (hNoER : "Engagement_Rate" ∉ (trimStep t).cols) :
    ∀ r ∈ (preprocess t o).rows, ∃ er reach : ℚ,
      cellAt r "Engagement_Rate" = Cell.num er ∧
      cellAt r "Reach" = Cell.num reach ∧
      (0 < reach → er = 100 * interQ (preprocess t o).cols r / reach) ∧
      (reach = 0 → er = 0) := by
  intro r hr
  set S := dedupStep o (nullStep o (platformStep (timeStep (stdDatesStep o
    (dateStep (trimStep t)))))) with hS
  have hpre : preprocess t o = erStep (coerceStep S) := rfl
  have hSc : ∀ b : String, b ≠ "Day_of_Week" → b ≠ "Month" → b ≠ "Hour" →
      (b ∈ S.cols ↔ b ∈ (trimStep t).cols) := by
    intro b h1 h2 h3
    rw [hS, dedupStep_cols, nullStep_cols, platformStep_cols,
      mem_timeStep_cols h3, mem_stdDatesStep_cols, mem_dateStep_cols h1 h2]
  have hRC : "Reach" ∈ (coerceStep S).cols := by
    rw [coerceStep_cols]
    exact (hSc _ (by decide) (by decide) (by decide)).mpr hReach
  have hEC : "Engagement_Rate" ∉ (coerceStep S).cols := by
    rw [coerceStep_cols]
    exact fun h => hNoER ((hSc _ (by decide) (by decide) (by decide)).mp h)
  rw [hpre] at hr ⊢
  unfold erStep at hr ⊢
  rw [if_pos ⟨hEC, hRC⟩] at hr ⊢
  rw [setColR_rows] at hr
  rcases List.mem_map.mp hr with ⟨r6, hr6, rfl⟩
  rcases List.mem_map.mp (hr6 : r6 ∈ S.rows.map (coerceRow S.cols)) with ⟨r5, _, rfl⟩
  have hcnum : ∀ c ∈ (["Likes", "Comments", "Shares", "Saves"] : List String),
      c ∈ (coerceStep S).cols → ∃ q, cellAt (coerceRow S.cols r5) c = Cell.num q := by
    intro c hc hmem
    refine coerceRow_num (by rwa [coerceStep_cols] at hmem) ?_
    have hinc : ∀ x ∈ (["Likes", "Comments", "Shares", "Saves"] : List String),
        x ∈ numericColumns := by decide
    exact hinc c hc
  rcases coerceRow_num (r := r5) (by rwa [coerceStep_cols] at hRC)
    (show "Reach" ∈ numericColumns by decide) with ⟨reach, hreachq⟩
  have hcell : cellPV (cellAt (coerceRow S.cols r5) "Reach") = .val reach := by
    rw [hreachq]; rfl
  have hbridge : ∀ (f : Row → Cell) (v : Cell),
      interQ (setColR (coerceStep S) "Engagement_Rate" f).cols
        (setCellRow (coerceRow S.cols r5) "Engagement_Rate" v)
      = interQ (coerceStep S).cols (coerceRow S.cols r5) := by
    intro f v
    have hmem : ∀ c : String, c ≠ "Engagement_Rate" →
        ((c ∈ (setColR (coerceStep S) "Engagement_Rate" f).cols) ↔
          c ∈ (coerceStep S).cols) := by
      intro c hc
      rw [mem_setColR_cols]
      simp [hc]
    unfold interQ
    rw [cellAt_set_ne _ _ (show ("Likes" : String) ≠ "Engagement_Rate" by decide),
      cellAt_set_ne _ _ (show ("Comments" : String) ≠ "Engagement_Rate" by decide),
      cellAt_set_ne _ _ (show ("Shares" : String) ≠ "Engagement_Rate" by decide),
      cellAt_set_ne _ _ (show ("Saves" : String) ≠ "Engagement_Rate" by decide)]
    rw [if_congr (hmem "Likes" (by decide)) rfl rfl,
      if_congr (hmem "Comments" (by decide)) rfl rfl,
      if_congr (hmem "Shares" (by decide)) rfl rfl,
      if_congr (hmem "Saves" (by decide)) rfl rfl]
  refine ⟨_, reach, cellAt_set_self _ _ _, ?_, ?_, ?_⟩
  · rw [cellAt_set_ne _ _ (show ("Reach" : String) ≠ "Engagement_Rate" by decide)]
    exact hreachq
  · intro hpos
    rw [interPV_val hcnum, hcell, er_formula_pos hpos, hbridge]
  · intro hz
    rw [interPV_val hcnum, hcell, hz]
    exact er_formula_zero _

theorem C1_witness :
    ("Reach" ∈ (trimStep tReach).cols ∧
      "Engagement_Rate" ∉ (trimStep tReach).cols) ∧
    (∀ r ∈ (preprocess tReach oPlain).rows, ∃ er reach : ℚ,
      cellAt r "Engagement_Rate" = Cell.num er ∧
      cellAt r "Reach" = Cell.num reach ∧
      (0 < reach → er = 100 * interQ (preprocess tReach oPlain).cols r / reach) ∧
      (reach = 0 → er = 0)) :=
  ⟨⟨by decide, by decide⟩,
    C1_engagement_rate_derivation tReach oPlain (by decide) (by decide)⟩

/-- C7 counterexample: `tDup` has two distinct raw rows ("abc"/"def" in
`Likes`) that cleaning with `deduplicate=true` maps to identical rows,
because numeric coercion (step 7) runs after deduplication (step 6); the
output is itself an output of preprocessing, yet a second run removes one
row instead of zero. -/
theorem C7_counterexample :
    (preprocess tDup oDedup).rows.length = 2 ∧
    rowsRemoved (preprocess tDup oDedup) oDedup = 1 := by decide

/-- C7 amended: rerunning cleaning (`removeNulls=false, deduplicate=true,
standardizeDates=false`) on its own output removes zero rows provided that
output contains no duplicate rows.  (The proviso is necessary: coercion
runs after deduplication and can collapse distinct raw rows into
duplicates of the output.) -/
theorem C7_amended (t : Table)
    (h : (preprocess t ⟨false, true, false⟩).rows.Nodup) :
    rowsAfter (preprocess t ⟨false, true, false⟩) ⟨false, true, false⟩
      = (preprocess t ⟨false, true, false⟩).rows.length ∧
    rowsRemoved (preprocess t ⟨false, true, false⟩) ⟨false, true, false⟩ = 0 := by
  have hfix := preprocess_clean_fixed t
  set U := preprocess t ⟨false, true, false⟩ with hU
  have h2 : preprocess U ⟨false, true, false⟩
      = erStep (coerceStep (dedupStep ⟨false, true, false⟩ U)) := by
    show erStep (coerceStep (dedupStep _ (nullStep _ (platformStep (timeStep
      (stdDatesStep _ (dateStep (trimStep U)))))))) = _
    rw [stdDatesStep_id rfl, nullStep_id rfl, hfix]
  have h3 : dedupStep ⟨false, true, false⟩ U = U := by
    show (⟨U.cols, dropDups U.rows⟩ : Table) = U
    rw [dropDups_eq_self h]
  have h4 : rowsAfter U ⟨false, true, false⟩ = U.rows.length := by
    show (preprocess U _).rows.length = _
    rw [h2, h3, erStep_len, coerceStep_len]
  refine ⟨h4, ?_⟩
  show U.rows.length - rowsAfter U ⟨false, true, false⟩ = 0
  rw [h4, Nat.sub_self]

theorem C7_amended_witness :
    (preprocess tDistinct ⟨false, true, false⟩).rows.Nodup ∧
    rowsAfter (preprocess tDistinct ⟨false, true, false⟩) ⟨false, true, false⟩
      = (preprocess tDistinct ⟨false, true, false⟩).rows.length :=
  ⟨by decide, (C7_amended tDistinct (by decide)).1⟩

end SocialPulse
